import Mathlib

/-!
Verification development for the YAML inventory script (`yaml-inventory.py`).

The script builds an in-memory graph of `Host` and `Group` objects from a
parsed YAML document and answers two queries: a full listing and a
single-host variable resolution.  We embed the program shallowly:

* Python objects live in arenas (`St.hosts`, `St.groups`); object identity
  becomes the arena index.  `globals.groups` is the group arena itself
  (the script appends every created group to it); `globals.all_hosts` is the
  group at index 0 (`all`), `globals.meta` the group at index 1 (`_all`),
  exactly as `parse_yaml` creates them.
* Python dictionaries become ordered association lists with
  replace-in-place update (`setPair`), matching `d[k] = v` semantics.
* Any Python crash (TypeError / KeyError / AttributeError / NameError /
  IndexError, and RecursionError for `get_variables`) is modelled as
  `none`; the recursive `get_variables` is given explicit fuel, so a
  recursion that never bottoms out returns `none` at every fuel.
* File IO of `import_vars` is outside the embedding: an entry's
  `importVars` field carries the already-loaded contents of the referenced
  files, in order.
* YAML fields that hold lists (`hosts`, `children`, `parents`, `groups`,
  `import_vars`) are modelled as plain lists with `[]` for "absent": the
  script only ever iterates them, so an absent field and a present empty
  list are indistinguishable.  Presence matters (and `Option` is kept) for
  `group`, `host`, `label` and `vars`.
-/

namespace YamlInv

/-- A YAML/JSON-ish value: scalars, mappings and sequences.  Mappings are
ordered association lists (Python `dict` with insertion order and
replace-in-place assignment). -/
inductive Value where
  | int (n : Int)
  | str (s : String)
  | vmap (m : List (String × Value))
  | vlist (l : List Value)

/-- `d[k] = v` on an ordered association list: replace in place if the key
exists, else append. -/
def setPair : List (String × Value) → String → Value → List (String × Value)
  | [], k, v => [(k, v)]
  | (k', v') :: rest, k, v =>
    if k' = k then (k, v) :: rest else (k', v') :: setPair rest k v

/-- `d.get(k)`: first binding of `k`. -/
def lookupV (m : List (String × Value)) (k : String) : Option Value :=
  (m.find? (fun p => p.1 = k)).map (fun p => p.2)

/-- `d.update(d2)`: assign every pair of `d2` into `d` in order. -/
def dictUpdate (m : List (String × Value)) (d : List (String × Value)) :
    List (String × Value) :=
  d.foldl (fun acc p => setPair acc p.1 p.2) m

/-- The two accepted shapes of a variable document (`parse_vars`): a mapping,
or a sequence whose elements are mappings (each contributing its first
item; an element with no items crashes with IndexError). -/
inductive VarsDoc where
  | dict (m : List (String × Value))
  | vlist (l : List (List (String × Value)))

/-- A declaration node of the document: a bare scalar string, or a record.
Record fields mirror the keys inspected by `parse_group` / `parse_host`.
`importVars` holds the loaded contents of the `import_vars` files. -/
inductive YEntry where
  | str (s : String)
  | record (group host label : Option String)
        (vars : Option VarsDoc)
        (importVars : List VarsDoc)
        (hosts children parents groups : List YEntry)

/-- A `Host` object: name, group-membership list (in insertion order,
holding group arena indices) and own variables. -/
structure Host where
  name : String
  groups : List Nat
  vars : List (String × Value)

/-- A `Group` object: name, member hosts (host arena indices), own
variables, child and parent groups (group arena indices). -/
structure Group where
  name : String
  hosts : List Nat
  vars : List (String × Value)
  children : List Nat
  parents : List Nat

instance : Inhabited Host := ⟨⟨"", [], []⟩⟩
instance : Inhabited Group := ⟨⟨"", [], [], [], []⟩⟩

/-- The whole mutable state: the host arena and the group arena
(`globals.groups`). -/
structure St where
  hosts : List Host
  groups : List Group

/-- Dereference a group id. -/
def getG (st : St) (i : Nat) : Group := st.groups.getD i default

/-- Dereference a host id. -/
def getH (st : St) (i : Nat) : Host := st.hosts.getD i default

/-- Write back a group object. -/
def setG (st : St) (i : Nat) (g : Group) : St :=
  { st with groups := st.groups.set i g }

/-- Write back a host object. -/
def setH (st : St) (i : Nat) (h : Host) : St :=
  { st with hosts := st.hosts.set i h }

/-- `Host.add_group`: append the group to the host's list unless present. -/
def hostAddGroup (st : St) (hid gid : Nat) : St :=
  let h := getH st hid
  if gid ∈ h.groups then st
  else setH st hid { h with groups := h.groups ++ [gid] }

/-- `Group.add_host`: append the host unless present, and reciprocate via
`Host.add_group`. -/
def addHostOp (st : St) (gid hid : Nat) : St :=
  let g := getG st gid
  if hid ∈ g.hosts then st
  else hostAddGroup (setG st gid { g with hosts := g.hosts ++ [hid] }) hid gid

/-- The `all`-redirection of `Group.add_child`: a child named `all` is
replaced by `globals.meta`, the group at index 1. -/
def redirect (st : St) (cid : Nat) : Nat :=
  if (getG st cid).name = "all" then 1 else cid

mutual
/-- `Group.add_child`, with explicit fuel for the mutual recursion with
`add_parent`.  The recursion always stops within a few nested calls on ids
that denote real objects (see the stabilisation lemmas), so the fuel never
runs out on states the script can reach. -/
def addChildF : Nat → St → Nat → Nat → St
  | 0, st, _, _ => st
  | n + 1, st, pid, cid =>
    let cid' := redirect st cid
    let p := getG st pid
    if cid' ∈ p.children then st
    else addParentF n (setG st pid { p with children := p.children ++ [cid'] }) cid' pid

/-- `Group.add_parent`, with explicit fuel (see `addChildF`). -/
def addParentF : Nat → St → Nat → Nat → St
  | 0, st, _, _ => st
  | n + 1, st, cid, pid =>
    let c := getG st cid
    if pid ∈ c.parents then st
    else addChildF n (setG st cid { c with parents := c.parents ++ [pid] }) pid cid
end

/-- `Group.add_child` as called by the script (fuel 5 always suffices on
reachable states). -/
def addChild (st : St) (pid cid : Nat) : St := addChildF 5 st pid cid

/-- `Group.add_parent` as called by the script. -/
def addParent (st : St) (cid pid : Nat) : St := addParentF 5 st cid pid

/-- `find_group(name, globals.groups)`: index of the first group with the
given name. -/
def findGroupAux : List Group → String → Option Nat
  | [], _ => none
  | g :: rest, n =>
    if g.name = n then some 0 else (findGroupAux rest n).map (· + 1)

/-- `find_group` over the whole state. -/
def findGroup (st : St) (n : String) : Option Nat := findGroupAux st.groups n

/-- The search loop of `find_host`: walk a list of host ids and return the
first whose name matches. -/
def findHostAux (st : St) : List Nat → String → Option Nat
  | [], _ => none
  | hid :: rest, n =>
    if (getH st hid).name = n then some hid else findHostAux st rest n

/-- `find_host(name)`: search `globals.all_hosts.get_hosts()`, i.e. the
member list of the group at index 0. -/
def findHost (st : St) (n : String) : Option Nat :=
  findHostAux st (getG st 0).hosts n

/-- The find-or-create idiom of `parse_group`: reuse the existing group or
append `Group(name)` to `globals.groups`. -/
def getOrCreateGroup (n : String) (st : St) : Nat × St :=
  match findGroup st n with
  | some gid => (gid, st)
  | none => (st.groups.length, { st with groups := st.groups ++ [⟨n, [], [], [], []⟩] })

/-- `Host.__init__`: allocate the host, then register it with `all`
(index 0) and `_all` (index 1) via `Group.add_host`. -/
def newHost (st : St) (n : String) : Nat × St :=
  let hid := st.hosts.length
  let st1 : St := { st with hosts := st.hosts ++ [⟨n, [], []⟩] }
  (hid, addHostOp (addHostOp st1 0 hid) 1 hid)

/-- The find-or-create idiom of `parse_host`. -/
def getOrCreateHost (n : String) (st : St) : Nat × St :=
  match findHost st n with
  | some hid => (hid, st)
  | none => newHost st n

/-- A target of `set_variable`: a host or a group object.  `none` models
Python's `None` flowing into an attribute access (a crash). -/
inductive Tgt where
  | host (hid : Nat)
  | group (gid : Nat)

/-- `obj.set_variable(k, v)`; crashes (`none`) when the object is `None`. -/
def setVarT (st : St) (t : Option Tgt) (k : String) (v : Value) : Option St :=
  match t with
  | none => none
  | some (.host hid) =>
    let h := getH st hid
    some (setH st hid { h with vars := setPair h.vars k v })
  | some (.group gid) =>
    let g := getG st gid
    some (setG st gid { g with vars := setPair g.vars k v })

/-- `parse_vars(vars, obj)`: a mapping is applied pairwise in order; a
sequence applies the first item of each element (IndexError on an empty
element). -/
def parseVars (d : VarsDoc) (t : Option Tgt) (st : St) : Option St :=
  match d with
  | .dict m => m.foldlM (fun s p => setVarT s t p.1 p.2) st
  | .vlist l =>
    l.foldlM
      (fun s var =>
        match var with
        | [] => none
        | (k, v) :: _ => setVarT s t k v)
      st

/-- `import_vars(vars, obj)`: apply each loaded file's document in order. -/
def applyImportVars (docs : List VarsDoc) (t : Option Tgt) (st : St) : Option St :=
  docs.foldlM (fun s d => parseVars d t s) st

/-- Python 2 substring containment `pat in s` on strings. -/
def hasSub (s pat : String) : Bool :=
  (List.range (s.toList.length + 1)).any
    (fun i => pat.toList.isPrefixOf (s.toList.drop i))

/-- For a bare-string entry reaching `parse_group`, any of these key checks
succeeds as a substring test and the subsequent string indexing crashes. -/
def badGroupStr (s : String) : Bool :=
  hasSub s "group" || hasSub s "label" || hasSub s "import_vars" ||
    hasSub s "vars" || hasSub s "hosts" || hasSub s "children" || hasSub s "parents"

/-- The `child_name` assignment of the `children` loop: with the enclosing
entry's `group` key present, a record child without a `group` key is
indexed and crashes with KeyError. -/
def childNameCrash (hasG : Bool) (e : YEntry) : Bool :=
  match e with
  | .str _ => false
  | .record cg _ _ _ _ _ _ _ _ => hasG && cg.isNone

/-- The `parent_name` assignment of the `parents` loop: a bare string binds
it; with the enclosing entry's `group` key present a record is indexed
(KeyError when it has no `group` key); otherwise the previous binding, if
any, persists. -/
def parentNameStep (hasG : Bool) (pname : Option String) (e : YEntry) :
    Option (Option String) :=
  match e with
  | .str s => some (some s)
  | .record pg _ _ _ _ _ _ _ _ =>
    if hasG then
      (match pg with
      | some n => some (some n)
      | none => none)
    else some pname

mutual
/-- `parse_group(entry)`.  Returns `none` on a crash, otherwise the value
of the Python return (`None` or the group) and the new state. -/
def parseGroup : YEntry → St → Option (Option Nat × St)
  | .str s, st =>
    let r := getOrCreateGroup s st
    if badGroupStr s then none else some (some r.1, r.2)
  | .record g _ lb v iv hs ch ps _, st =>
    let gopt : Option Nat :=
      match g with
      | some gname => some (getOrCreateGroup gname st).1
      | none => none
    let st1 : St :=
      match g with
      | some gname => (getOrCreateGroup gname st).2
      | none => st
    match
      (match lb with
      | none => some st1
      | some l =>
        match g with
        | none => none
        | some gname => setVarT st1 (gopt.map Tgt.group) l (.str gname)) with
    | none => none
    | some st2 =>
      match applyImportVars iv (gopt.map Tgt.group) st2 with
      | none => none
      | some st3 =>
        match
          (match v with
          | none => some st3
          | some d => parseVars d (gopt.map Tgt.group) st3) with
        | none => none
        | some st4 =>
          match parseHostsL gopt hs st4 with
          | none => none
          | some st5 =>
            match parseChildrenL g.isSome gopt ch st5 with
            | none => none
            | some st6 =>
              match parseParentsL g.isSome gopt none ps st6 with
              | none => none
              | some st7 => some (gopt, st7)

/-- `parse_host(entry)`. -/
def parseHost : YEntry → St → Option (Option Nat × St)
  | .str s, st =>
    let r := getOrCreateHost s st
    some (some r.1, r.2)
  | .record _ h _ v iv _ _ _ gs, st =>
    match h with
    | none => some (none, st)
    | some hname =>
      let hid := (getOrCreateHost hname st).1
      let st1 := (getOrCreateHost hname st).2
      match
        (match v with
        | none => some st1
        | some d => parseVars d (some (.host hid)) st1) with
      | none => none
      | some st2 =>
        match applyImportVars iv (some (.host hid)) st2 with
        | none => none
        | some st3 =>
          match parseGroupsL hid gs st3 with
          | none => none
          | some st4 => some (some hid, st4)

/-- The `hosts` loop of `parse_group`: parse each entry, and add real hosts
as members (crash when the enclosing group is `None`). -/
def parseHostsL : Option Nat → List YEntry → St → Option St
  | _, [], st => some st
  | gopt, e :: rest, st =>
    match parseHost e st with
    | none => none
    | some (hopt, st1) =>
      match hopt with
      | none => parseHostsL gopt rest st1
      | some hid =>
        match gopt with
        | none => none
        | some gid => parseHostsL gopt rest (addHostOp st1 gid hid)

/-- The `children` loop of `parse_group`. -/
def parseChildrenL : Bool → Option Nat → List YEntry → St → Option St
  | _, _, [], st => some st
  | hasG, gopt, e :: rest, st =>
    if childNameCrash hasG e then none
    else
      match parseGroup e st with
      | none => none
      | some (copt, st1) =>
        match copt with
        | none => parseChildrenL hasG gopt rest st1
        | some cid =>
          match gopt with
          | none => none
          | some gid => parseChildrenL hasG gopt rest (addChild st1 gid cid)

/-- The `parents` loop of `parse_group`: resolve `parent_name`, run a full
recursive `parse_group` on the entry (result discarded), then look the name
up with `find_group` and call `group.add_parent` on it; an unresolved name
or a `None` group crashes. -/
def parseParentsL : Bool → Option Nat → Option String → List YEntry → St → Option St
  | _, _, _, [], st => some st
  | hasG, gopt, pname, e :: rest, st =>
    match parentNameStep hasG pname e with
    | none => none
    | some pname' =>
      match parseGroup e st with
      | none => none
      | some (_, st1) =>
        match pname' with
        | none => none
        | some pn =>
          match findGroup st1 pn with
          | none => none
          | some pid =>
            match gopt with
            | none => none
            | some gid => parseParentsL hasG gopt pname' rest (addParent st1 gid pid)

/-- The `groups` loop of `parse_host`: `parse_group` each entry and call
`group.add_host(host)` on the result with no `None` check. -/
def parseGroupsL : Nat → List YEntry → St → Option St
  | _, [], st => some st
  | hid, e :: rest, st =>
    match parseGroup e st with
    | none => none
    | some (gopt, st1) =>
      match gopt with
      | none => none
      | some gid => parseGroupsL hid rest (addHostOp st1 gid hid)
end

/-- `'group' in entry` at top level: key test for records, substring test
for bare strings. -/
def groupKey : YEntry → Bool
  | .str s => hasSub s "group"
  | .record g _ _ _ _ _ _ _ _ => g.isSome

/-- `'host' in entry` at top level. -/
def hostKey : YEntry → Bool
  | .str s => hasSub s "host"
  | .record _ h _ _ _ _ _ _ _ => h.isSome

/-- One iteration of the `parse_yaml` loop: both `if`s are checked in
sequence (not `elif`). -/
def parseStep (st : St) (e : YEntry) : Option St :=
  match (if groupKey e then (parseGroup e st).map (·.2) else some st) with
  | none => none
  | some st1 =>
    match (if hostKey e then (parseHost e st1).map (·.2) else some st1) with
    | none => none
    | some st2 => some st2

/-- The state set up at the start of `parse_yaml`: `all` at index 0, `_all`
at index 1, no hosts. -/
def initSt : St := ⟨[], [⟨"all", [], [], [], []⟩, ⟨"_all", [], [], [], []⟩]⟩

/-- `parse_yaml(yaml_config)`. -/
def parseYaml (doc : List YEntry) : Option St :=
  doc.foldlM parseStep initSt

/-- `Group.get_variables` with fuel: merge parents' resolved variables into
an empty dict with plain `dict.update`, then update with the group's own
variables.  `none` = the recursion never returns (RecursionError). -/
def groupVarsF : Nat → St → Nat → Option (List (String × Value))
  | 0, _, _ => none
  | n + 1, st, gid =>
    let g := getG st gid
    match g.parents.foldlM (fun acc pid => (groupVarsF n st pid).map (dictUpdate acc)) [] with
    | none => none
    | some res => some (dictUpdate res g.vars)

/-- One merge step of `Host.get_variables`: dict values are updated
key-wise into an existing dict (AttributeError if the existing value is
not a dict), copied when the key is new; other values assign. -/
def mergeVar (res : List (String × Value)) (k : String) (v : Value) :
    Option (List (String × Value)) :=
  match v with
  | .vmap m =>
    match lookupV res k with
    | some (.vmap m0) => some (setPair res k (.vmap (dictUpdate m0 m)))
    | some _ => none
    | none => some (setPair res k (.vmap m))
  | _ => some (setPair res k v)

/-- `Host.get_variables` with fuel: merge each membership group's resolved
variables in order, then the host's own variables last. -/
def hostVarsF (fuel : Nat) (st : St) (hid : Nat) : Option (List (String × Value)) :=
  let h := getH st hid
  match
    h.groups.foldlM
      (fun acc gid =>
        match groupVarsF fuel st gid with
        | none => none
        | some gv => gv.foldlM (fun a (p : String × Value) => mergeVar a p.1 p.2) acc)
      [] with
  | none => none
  | some r1 => h.vars.foldlM (fun a (p : String × Value) => mergeVar a p.1 p.2) r1

/-- `host.get_variables()` as the script runs it: on an acyclic parent
graph a fuel of one more than the number of groups bounds every parent
chain, and on a cyclic one the recursion never returns at any fuel
(see `groupVarsF_mono`: the choice of sufficient fuel is immaterial). -/
def hostVars (st : St) (hid : Nat) : Option (List (String × Value)) :=
  hostVarsF (st.groups.length + 1) st hid

/-- The single-host output block of `__main__`: find the host by name over
`all`'s members (crash on `None`), resolve, then apply the `-e key=value`
override last. -/
def singleHostOut (st : St) (n : String) (extra : Option (String × String)) :
    Option (List (String × Value)) :=
  match findHost st n with
  | none => none
  | some hid =>
    match hostVars st hid with
    | none => none
    | some r =>
      some
        (match extra with
        | none => r
        | some (k, v) => setPair r k (.str v))

/-- The per-group entry of the listing output. -/
def groupEntryVal (st : St) (g : Group) : Value :=
  .vmap
    [("hosts", .vlist (g.hosts.map (fun hid => .str (getH st hid).name))),
     ("vars", .vmap g.vars),
     ("children", .vlist (g.children.map (fun cid => .str (getG st cid).name))),
     ("parents", .vlist (g.parents.map (fun pid => .str (getG st pid).name)))]

/-- `result['_meta']['hostvars'][name] = hv`: crashes when an earlier key
collision replaced the nested dicts. -/
def setMetaHostvar (res : List (String × Value)) (hname : String)
    (hv : List (String × Value)) : Option (List (String × Value)) :=
  match lookupV res "_meta" with
  | some (.vmap m) =>
    match lookupV m "hostvars" with
    | some (.vmap hvs) =>
      some (setPair res "_meta"
        (.vmap (setPair m "hostvars" (.vmap (setPair hvs hname (.vmap hv))))))
    | _ => none
  | _ => none

/-- One iteration of the host loop of the listing block: store the resolved
variables under `_meta.hostvars`, then (inside the same loop) apply the
`-e key=value` override. -/
def listingHostStep (st : St) (extra : Option (String × String))
    (acc : List (String × Value)) (hid : Nat) : Option (List (String × Value)) :=
  match hostVars st hid with
  | none => none
  | some hv =>
    match setMetaHostvar acc (getH st hid).name hv with
    | none => none
    | some acc1 =>
      some
        (match extra with
        | none => acc1
        | some (k, v) => setPair acc1 k (.str v))

/-- The listing output block of `__main__`: seed `_meta.hostvars`, emit one
entry per group except `all`, then loop over `all`'s members writing each
host's resolved variables — and, inside that same loop, the `-e key=value`
override. -/
def listingOut (st : St) (extra : Option (String × String)) :
    Option (List (String × Value)) :=
  let base : List (String × Value) := [("_meta", .vmap [("hostvars", .vmap [])])]
  let afterGroups := st.groups.foldl
    (fun acc g => if g.name = "all" then acc else setPair acc g.name (groupEntryVal st g))
    base
  (getG st 0).hosts.foldlM (listingHostStep st extra) afterGroups

/-! ## Concrete scenario documents -/

/-- C1 scenario: group `p` sets `meta = mapping a`, its child `c` sets
`meta = mapping b`, host `h` is a direct member of `c` only. -/
def c1doc (x y : Value) : List YEntry :=
  [.record (some "p") none none (some (.dict [("meta", .vmap [("a", x)])])) [] [] [] [] [],
   .record (some "c") none none (some (.dict [("meta", .vmap [("b", y)])])) [] [.str "h"] [] [.str "p"] []]

/-- C2 scenario: a host record with both `vars` and `import_vars` binding
the same key. -/
def c2hostDoc (v1 v2 : Value) : List YEntry :=
  [.record none (some "h") none (some (.vlist [[("x", v1)]])) [.dict [("x", v2)]] [] [] [] []]

/-- C2 contrast: the same conflict on a group record. -/
def c2groupDoc (v1 v2 : Value) : List YEntry :=
  [.record (some "g") none none (some (.vlist [[("x", v1)]])) [.dict [("x", v2)]] [] [] [] []]

/-- C3 scenario: host in `g1` then `g2`, both setting `x`. -/
def c3docA (n1 n2 : Int) : List YEntry :=
  [.record (some "g1") none none (some (.vlist [[("x", .int n1)]])) [] [] [] [] [],
   .record (some "g2") none none (some (.vlist [[("x", .int n2)]])) [] [] [] [] [],
   .record none (some "h") none none [] [] [] [] [.str "g1", .str "g2"]]

/-- C3 scenario with the host also setting `x` itself. -/
def c3docB (n1 n2 n3 : Int) : List YEntry :=
  [.record (some "g1") none none (some (.vlist [[("x", .int n1)]])) [] [] [] [] [],
   .record (some "g2") none none (some (.vlist [[("x", .int n2)]])) [] [] [] [] [],
   .record none (some "h") none (some (.vlist [[("x", .int n3)]])) [] [] [] [] [.str "g1", .str "g2"]]

/-- C7 scenario: `a` and `b` are each declared a child of the other, and a
host joins `a`. -/
def cycDoc : List YEntry :=
  [.record (some "a") none none none [] [] [.str "b"] [] [],
   .record (some "b") none none none [] [] [.str "a"] [] [],
   .record none (some "h") none none [] [] [] [] [.str "a"]]

/-- The graph the script builds from `cycDoc`: the parent relation between
groups 2 (`a`) and 3 (`b`) is cyclic. -/
def cycSt : St :=
  ⟨[⟨"h", [0, 1, 2], []⟩],
   [⟨"all", [0], [], [], []⟩, ⟨"_all", [0], [], [], []⟩,
    ⟨"a", [0], [], [3], [3]⟩, ⟨"b", [], [], [2], [2]⟩]⟩

/-- C6 scenario: the reserved group `all` is given an explicit parent via a
`parents` declaration, which bypasses the `add_child` redirection. -/
def c6doc : List YEntry :=
  [.record (some "all") none none none [] [] [] [.str "p"] []]

/-- C6 redirect scenario: a group declares `all` as a child. -/
def c6redirDoc : List YEntry :=
  [.record (some "g") none none none [] [] [.str "all"] [] []]

/-- C4 scenario: a populated store (one host, one fresh group) on which a
bare `Host.add_group` is invoked. -/
def c4aSt : St :=
  hostAddGroup
    { (newHost initSt "h").2 with
      groups := (newHost initSt "h").2.groups ++ [⟨"g", [], [], [], []⟩] }
    0 2

/-- C4 scenario: `add_parent` invoked on the group named `all`, as the
`parents` handling of a `group: all` record does. -/
def c4bSt : St :=
  addParent { initSt with groups := initSt.groups ++ [⟨"p", [], [], [], []⟩] } 0 2

/-! ## Small dictionary lemmas -/

theorem lookupV_setPair_self (m : List (String × Value)) (k : String) (v : Value) :
    lookupV (setPair m k v) k = some v := by
  induction m with
  | nil => simp [setPair, lookupV, List.find?]
  | cons p rest ih =>
    obtain ⟨k1, v1⟩ := p
    by_cases h : k1 = k
    · simp [setPair, h, lookupV, List.find?]
    · simpa [setPair, h, lookupV, List.find?] using ih

/-! ## C1: deep merge through the parent chain -/

/-- C1 (counterexample): with `p` setting `meta = mapping a : 1` above `c`
setting `meta = mapping b : 2`, the host in `c` resolves `meta` to the
child mapping alone, which has no key `a` — not to the key-wise merge the
claim asserts. -/
theorem c1_deep_merge_counterexample :
    (parseYaml (c1doc (.int 1) (.int 2))).map
        (fun st => (hostVars st 0).map (fun r => lookupV r "meta"))
      = some (some (some (.vmap [("b", .int 2)]))) ∧
    lookupV [("b", Value.int 2)] "a" = none := ⟨rfl, rfl⟩

/-- C1 (amended): `Group.get_variables` merges the parent chain with plain
`dict.update`, replacing mapping values wholesale, so the host resolves
`meta` to the child group mapping only; key-wise merging happens solely
when group results and host vars are merged in `Host.get_variables`. -/
theorem c1_deep_merge_amended :
    (parseYaml (c1doc (.int 1) (.int 2))).map
        (fun st => (hostVars st 0).map (fun r => lookupV r "meta"))
      = some (some (some (.vmap [("b", .int 2)]))) ∧
    (parseYaml (c1doc (.str "u") (.str "w"))).map
        (fun st => (hostVars st 0).map (fun r => lookupV r "meta"))
      = some (some (some (.vmap [("b", .str "w")]))) := ⟨rfl, rfl⟩

/-! ## C2: order of `vars` and `import_vars` in `parse_host` -/

/-- C2 (counterexample): for a host record with `vars` binding `x` to `1`
and `import_vars` binding `x` to `2`, the stored value is the imported one,
not the record's own. -/
theorem c2_host_vars_order_counterexample :
    (parseYaml (c2hostDoc (.int 1) (.int 2))).map
        (fun st => lookupV (getH st 0).vars "x")
      = some (some (.int 2)) ∧ Value.int 2 ≠ Value.int 1 :=
  ⟨rfl, fun h => absurd (Value.int.inj h) (by decide)⟩

/-- C2 (amended): `parse_host` applies the record's `vars` first and
`import_vars` second — the reverse of group handling — so a key present in
both ends up with the imported value; on a group record the same conflict
ends up with the record's own value. -/
theorem c2_host_vars_order_amended (v1 v2 : Value) :
    (parseYaml (c2hostDoc v1 v2)).map (fun st => lookupV (getH st 0).vars "x")
        = some (some v2) ∧
    (parseYaml (c2groupDoc v1 v2)).map (fun st => lookupV (getG st 2).vars "x")
        = some (some v1) := ⟨rfl, rfl⟩

/-! ## C3: membership-order precedence, host vars final -/

/-- C3: for a host that joined `g1` (setting `x = n1`) and then `g2`
(setting `x = n2`), the resolved `x` is `n2`; if the host additionally sets
`x = n3` itself, the resolved `x` is `n3`. -/
theorem c3_precedence :
    (parseYaml (c3docA 1 2)).map
        (fun st => (hostVars st 0).map (fun r => lookupV r "x"))
      = some (some (some (.int 2))) ∧
    (parseYaml (c3docB 1 2 3)).map
        (fun st => (hostVars st 0).map (fun r => lookupV r "x"))
      = some (some (some (.int 3))) := ⟨rfl, rfl⟩

/-! ## C7: cycles in construction and resolution -/

theorem cyc_groupVars_none : ∀ n, groupVarsF n cycSt 2 = none ∧ groupVarsF n cycSt 3 = none
  | 0 => ⟨rfl, rfl⟩
  | n + 1 => by
    obtain ⟨h2, h3⟩ := cyc_groupVars_none n
    have p2 : (getG cycSt 2).parents = [3] := rfl
    have p3 : (getG cycSt 3).parents = [2] := rfl
    constructor
    · rw [groupVarsF, p2]
      simp [List.foldlM, h3]
    · rw [groupVarsF, p3]
      simp [List.foldlM, h2]

/-- C7: the builder terminates on the cyclic document (producing the
mutual parent cycle between `a` and `b`), but `Host.get_variables` for the
host never returns at any recursion depth — the script dies with
RecursionError, contradicting the claim that resolution terminates. -/
theorem c7_cycle_divergence :
    parseYaml cycDoc = some cycSt ∧
    (getG cycSt 2).parents = [3] ∧ (getG cycSt 3).parents = [2] ∧
    ∀ fuel, hostVarsF fuel cycSt 0 = none := by
  refine ⟨rfl, rfl, rfl, fun fuel => ?_⟩
  obtain ⟨h2, _⟩ := cyc_groupVars_none fuel
  cases fuel with
  | zero => rfl
  | succ n =>
    have e0 : groupVarsF (n + 1) cycSt 0 = some [] := by
      rw [groupVarsF]
      simp [List.foldlM, dictUpdate, (show (getG cycSt 0).vars = [] from rfl)]
    have e1 : groupVarsF (n + 1) cycSt 1 = some [] := by
      rw [groupVarsF]
      simp [List.foldlM, dictUpdate, (show (getG cycSt 1).vars = [] from rfl)]
    have hg : (getH cycSt 0).groups = [0, 1, 2] := rfl
    rw [hostVarsF, hg]
    simp [List.foldlM, e0, e1, h2]

/-! ## C4: counterexample states -/

/-- C4 (counterexample): after the operation sequence "create host `h`,
create group `g`, bare `Host.add_group`" the group is in the host's group
list exactly once, yet the host is not in the group's member list; after
`add_parent` on the group named `all`, `all` has the parent exactly once
but is not among that parent's children.  Both instances refute the
claimed biconditional. -/
theorem c4_symmetry_counterexample :
    (¬ (((getG c4aSt 2).hosts.count 0 = 1) ↔ ((getH c4aSt 0).groups.count 2 = 1))) ∧
    (¬ (((getG c4bSt 2).children.count 0 = 1) ↔ ((getG c4bSt 0).parents.count 2 = 1))) := by
  constructor
  · decide
  · decide

/-! ## C6: counterexample -/

/-- C6 (counterexample): the document `[group: all, parents: [p]]` builds a
state in which `all`'s parents list is `[2]` (the group `p`), not empty:
the `parents` handling calls `add_parent` directly on `all`, bypassing the
`add_child` redirection. -/
theorem c6_all_parents_counterexample :
    (parseYaml c6doc).map (fun st => (getG st 0).parents) = some [2] ∧
    ([2] : List Nat) ≠ [] := ⟨rfl, by decide⟩

/-! ## C10: counterexample -/

/-- C10 (counterexample): on the empty inventory (no hosts) with extra
option `k=v`, the listing output is produced but contains no key `k` — the
override is applied inside the per-host loop, which never runs. -/
theorem c10_extra_counterexample :
    parseYaml ([] : List YEntry) = some initSt ∧
    (listingOut initSt (some ("k", "v"))).map (fun out => lookupV out "k")
      = some none := ⟨rfl, rfl⟩

/-! ## C9: counterexample -/

/-- C9 (counterexample): the bare-string top-level node `"foohost"` is
processed as a host — `'host' in entry` is substring containment on a
Python string — so after the build the store contains a host of that
name. -/
theorem c9_bare_string_counterexample :
    (parseYaml [.str "foohost"]).map (fun st => st.hosts.map Host.name)
      = some ["foohost"] := rfl

/-! ## List and state access toolbox -/

theorem getD_append_lt {α} (l l2 : List α) (i : Nat) (d : α) (h : i < l.length) :
    (l ++ l2).getD i d = l.getD i d := by
  induction l generalizing i with
  | nil => simp at h
  | cons a rest ih =>
    cases i with
    | zero => rfl
    | succ j => simpa using ih j (by simpa using h)

theorem getD_append_len {α} (l : List α) (a : α) (d : α) :
    (l ++ [a]).getD l.length d = a := by
  induction l with
  | nil => rfl
  | cons b rest ih => simp [ih]

theorem getD_set_self {α} (l : List α) (i : Nat) (a : α) (d : α) (h : i < l.length) :
    (l.set i a).getD i d = a := by
  induction l generalizing i with
  | nil => simp at h
  | cons b rest ih =>
    cases i with
    | zero => rfl
    | succ j => simpa using ih j (by simpa using h)

theorem getD_set_ne {α} (l : List α) (i j : Nat) (a : α) (d : α) (h : i ≠ j) :
    (l.set i a).getD j d = l.getD j d := by
  induction l generalizing i j with
  | nil => rfl
  | cons b rest ih =>
    cases i with
    | zero => cases j with
      | zero => omega
      | succ j2 => rfl
    | succ i2 => cases j with
      | zero => rfl
      | succ j2 => simpa using ih i2 j2 (by omega)

theorem getD_ge {α} (l : List α) (i : Nat) (d : α) (h : l.length ≤ i) :
    l.getD i d = d := by
  induction l generalizing i with
  | nil => rfl
  | cons b rest ih =>
    cases i with
    | zero => simp at h
    | succ j => simpa using ih j (by simpa using h)

theorem set_of_ge {α} (l : List α) (i : Nat) (a : α) (h : l.length ≤ i) :
    l.set i a = l := by
  induction l generalizing i with
  | nil => rfl
  | cons b rest ih =>
    cases i with
    | zero => simp at h
    | succ j => simp [List.set, ih j (by simpa using h)]

theorem getG_setG_self (st : St) (i : Nat) (g : Group) (h : i < st.groups.length) :
    getG (setG st i g) i = g := getD_set_self _ _ _ _ h

theorem getG_setG_ne (st : St) (i j : Nat) (g : Group) (h : i ≠ j) :
    getG (setG st i g) j = getG st j := getD_set_ne _ _ _ _ _ h

theorem getH_setH_self (st : St) (i : Nat) (x : Host) (h : i < st.hosts.length) :
    getH (setH st i x) i = x := getD_set_self _ _ _ _ h

theorem getH_setH_ne (st : St) (i j : Nat) (x : Host) (h : i ≠ j) :
    getH (setH st i x) j = getH st j := getD_set_ne _ _ _ _ _ h

theorem getG_setH (st : St) (i : Nat) (x : Host) (j : Nat) :
    getG (setH st i x) j = getG st j := rfl

theorem getH_setG (st : St) (i : Nat) (g : Group) (j : Nat) :
    getH (setG st i g) j = getH st j := rfl

theorem setG_groups_length (st : St) (i : Nat) (g : Group) :
    (setG st i g).groups.length = st.groups.length := by simp [setG]

theorem setH_hosts_length (st : St) (i : Nat) (x : Host) :
    (setH st i x).hosts.length = st.hosts.length := by simp [setH]

theorem setG_hosts (st : St) (i : Nat) (g : Group) : (setG st i g).hosts = st.hosts := rfl

theorem setH_groups (st : St) (i : Nat) (x : Host) : (setH st i x).groups = st.groups := rfl

/-- The hosts arena is untouched by `add_host` (only host fields change). -/
theorem addHostOp_hosts_length (st : St) (g h : Nat) :
    (addHostOp st g h).hosts.length = st.hosts.length := by
  simp only [addHostOp, hostAddGroup]
  split
  · rfl
  · split <;> simp [setG, setH]

theorem addHostOp_groups_length (st : St) (g h : Nat) :
    (addHostOp st g h).groups.length = st.groups.length := by
  simp only [addHostOp, hostAddGroup]
  split
  · rfl
  · split <;> simp [setG, setH]

/-- `add_host` preserves every host's name. -/
theorem getH_addHostOp_name (st : St) (g h i : Nat) :
    (getH (addHostOp st g h) i).name = (getH st i).name := by
  simp only [addHostOp, hostAddGroup]
  split
  · rfl
  · split
    · rfl
    · rename_i hmem hmem2
      by_cases hi : h = i
      · subst hi
        by_cases hlt : h < st.hosts.length
        · rw [getH_setH_self _ _ _ (by simpa [setG] using hlt)]
          simp [getH_setG]
        · have h2 : st.hosts.length ≤ h := by omega
          simp [getH, setH, setG, set_of_ge _ _ _ h2]
      · rw [getH_setH_ne _ _ _ _ (fun hh => hi hh)]
        simp [getH_setG]

/-- `add_host` preserves every host's vars. -/
theorem getH_addHostOp_vars (st : St) (g h i : Nat) :
    (getH (addHostOp st g h) i).vars = (getH st i).vars := by
  simp only [addHostOp, hostAddGroup]
  split
  · rfl
  · split
    · rfl
    · rename_i hmem hmem2
      by_cases hi : h = i
      · subst hi
        by_cases hlt : h < st.hosts.length
        · rw [getH_setH_self _ _ _ (by simpa [setG] using hlt)]
          simp [getH_setG]
        · have h2 : st.hosts.length ≤ h := by omega
          simp [getH, setH, setG, set_of_ge _ _ _ h2]
      · rw [getH_setH_ne _ _ _ _ (fun hh => hi hh)]
        simp [getH_setG]

/-! ## find lemmas -/

theorem findHostAux_name (st : St) (l : List Nat) (n : String) (hid : Nat)
    (h : findHostAux st l n = some hid) : (getH st hid).name = n := by
  induction l with
  | nil => simp [findHostAux] at h
  | cons x rest ih =>
    by_cases hx : (getH st x).name = n
    · simp [findHostAux, hx] at h
      subst h
      exact hx
    · simp [findHostAux, hx] at h
      exact ih h

theorem findGroupAux_lt (l : List Group) (n : String) (gid : Nat)
    (h : findGroupAux l n = some gid) : gid < l.length := by
  induction l generalizing gid with
  | nil => simp [findGroupAux] at h
  | cons g rest ih =>
    by_cases hg : g.name = n
    · simp [findGroupAux, hg] at h
      simp [← h]
    · simp [findGroupAux, hg] at h
      obtain ⟨j, hj, hj2⟩ := h
      have := ih j hj
      simp [← hj2]
      omega

theorem findGroupAux_name (l : List Group) (n : String) (gid : Nat)
    (h : findGroupAux l n = some gid) : (l.getD gid default).name = n := by
  induction l generalizing gid with
  | nil => simp [findGroupAux] at h
  | cons g rest ih =>
    by_cases hg : g.name = n
    · simp [findGroupAux, hg] at h
      simp [← h, hg]
    · simp [findGroupAux, hg] at h
      obtain ⟨j, hj, hj2⟩ := h
      rw [← hj2]
      simpa using ih j hj

theorem findGroupAux_none (l : List Group) (n : String)
    (h : findGroupAux l n = none) : ∀ g ∈ l, g.name ≠ n := by
  induction l with
  | nil => simp
  | cons g rest ih =>
    by_cases hg : g.name = n
    · simp [findGroupAux, hg] at h
    · simp [findGroupAux, hg] at h
      intro g2 hg2
      cases hg2 with
      | head => exact hg
      | tail _ hmem => exact ih h g2 hmem

theorem findGroupAux_append (l : List Group) (g : Group) (n : String)
    (h : findGroupAux l n = none) (hname : g.name = n) :
    findGroupAux (l ++ [g]) n = some l.length := by
  induction l with
  | nil => simp [findGroupAux, hname]
  | cons a rest ih =>
    by_cases ha : a.name = n
    · simp [findGroupAux, ha] at h
    · simp [findGroupAux, ha] at h
      simp [findGroupAux, ha, ih h]

/-! ## C9: dispatch amended -/

/-- C9 (amended): for record nodes, dispatch is indeed by key — `group`
runs `parse_group` and `host` runs `parse_host`, a record with neither key
is skipped.  For a bare-string node, however, `'key' in entry` is Python 2
substring containment: a string containing neither `"group"` nor `"host"`
is skipped; one containing `"host"` but not `"group"` is processed as a
host (created and registered); one containing `"group"` reaches
`parse_group`, whose string indexing then crashes the run. -/
theorem c9_dispatch_amended :
    (∀ lb v iv hs ch ps gs st,
        parseStep st (.record none none lb v iv hs ch ps gs) = some st) ∧
    (∀ (g : Option String) h lb v iv hs ch ps gs,
        groupKey (.record g h lb v iv hs ch ps gs) = g.isSome ∧
        hostKey (.record g h lb v iv hs ch ps gs) = h.isSome) ∧
    (∀ s st, hasSub s "group" = false → hasSub s "host" = false →
        parseStep st (.str s) = some st) ∧
    (∀ s st, hasSub s "group" = false → hasSub s "host" = true →
        parseStep st (.str s) = some (getOrCreateHost s st).2 ∧
        (getH (getOrCreateHost s st).2 (getOrCreateHost s st).1).name = s) ∧
    (∀ s st, hasSub s "group" = true → parseStep st (.str s) = none) := by
  refine ⟨?_, ?_, ?_, ?_, ?_⟩
  · intro lb v iv hs ch ps gs st
    simp [parseStep, groupKey, hostKey]
  · intro g h lb v iv hs ch ps gs
    exact ⟨rfl, rfl⟩
  · intro s st h1 h2
    simp [parseStep, groupKey, hostKey, h1, h2]
  · intro s st h1 h2
    constructor
    · simp [parseStep, groupKey, hostKey, h1, h2, parseHost]
    · unfold getOrCreateHost
      cases hf : findHost st s with
      | some hid => exact findHostAux_name _ _ _ _ hf
      | none =>
        show (getH (newHost st s).2 (newHost st s).1).name = s
        unfold newHost
        simp only
        rw [getH_addHostOp_name, getH_addHostOp_name]
        simp [getH, getD_append_len]
  · intro s st h1
    simp [parseStep, groupKey, parseGroup, badGroupStr, h1]

/-- Witness for `c9_dispatch_amended` at concrete strings. -/
theorem c9_dispatch_amended_witness :
    parseStep initSt (.str "plainname") = some initSt ∧
    (parseStep initSt (.str "foohost") = some (getOrCreateHost "foohost" initSt).2 ∧
      (getH (getOrCreateHost "foohost" initSt).2
        (getOrCreateHost "foohost" initSt).1).name = "foohost") ∧
    parseStep initSt (.str "mygroup") = none :=
  ⟨c9_dispatch_amended.2.2.1 "plainname" initSt rfl rfl,
   c9_dispatch_amended.2.2.2.1 "foohost" initSt rfl rfl,
   c9_dispatch_amended.2.2.2.2 "mygroup" initSt rfl⟩

/-! ## C10: the extra `key=value` override -/

theorem listingHostStep_extra (st : St) (k v : String) (acc : List (String × Value))
    (x : Nat) (acc1 : List (String × Value))
    (h : listingHostStep st (some (k, v)) acc x = some acc1) :
    ∃ acc0, acc1 = setPair acc0 k (.str v) := by
  unfold listingHostStep at h
  split at h
  · simp at h
  · split at h
    · simp at h
    · rename_i acc0 hm
      simp at h
      exact ⟨acc0, h.symm⟩

theorem listing_fold_extra (st : St) (k v : String) :
    ∀ (l : List Nat) (acc out : List (String × Value)), l ≠ [] →
      l.foldlM (listingHostStep st (some (k, v))) acc = some out →
      lookupV out k = some (.str v) := by
  intro l
  induction l with
  | nil => intro acc out h _; exact absurd rfl h
  | cons x rest ih =>
    intro acc out _ hfold
    rw [List.foldlM_cons] at hfold
    cases hstep : listingHostStep st (some (k, v)) acc x with
    | none => rw [hstep] at hfold; exact Option.noConfusion hfold
    | some acc1 =>
      rw [hstep] at hfold
      cases rest with
      | nil =>
        have hout : acc1 = out := Option.some.inj hfold
        obtain ⟨acc0, rfl⟩ := listingHostStep_extra st k v acc x acc1 hstep
        rw [← hout]
        exact lookupV_setPair_self acc0 k (.str v)
      | cons y rest2 => exact ih acc1 out (by simp) hfold

/-- C10 (amended): the override is applied inside the per-host loop of the
listing block, so it appears in the listing output exactly when the
inventory has at least one host (with no hosts the `-e` option has no
effect at all); in the single-host output it is applied unconditionally
after resolution, whenever the query succeeds. -/
theorem c10_extra_amended :
    (∀ st extra, (getG st 0).hosts = [] → listingOut st extra = listingOut st none) ∧
    (∀ st (k v : String) out, listingOut st (some (k, v)) = some out →
        (getG st 0).hosts ≠ [] → lookupV out k = some (.str v)) ∧
    (∀ st n (k v : String) out, singleHostOut st n (some (k, v)) = some out →
        lookupV out k = some (.str v)) := by
  refine ⟨?_, ?_, ?_⟩
  · intro st extra h
    unfold listingOut
    rw [h]
    simp [List.foldlM]
  · intro st k v out hlist hne
    unfold listingOut at hlist
    exact listing_fold_extra st k v _ _ out hne hlist
  · intro st n k v out h
    unfold singleHostOut at h
    split at h
    · simp at h
    · split at h
      · simp at h
      · rename_i r hr
        simp at h
        rw [← h]
        exact lookupV_setPair_self r k (.str v)

/-- The state built from the C3 document, used as a concrete witness. -/
def c3Built : St := (parseYaml (c3docA 1 2)).getD initSt

/-- Witness for `c10_extra_amended` on concrete inventories. -/
theorem c10_extra_amended_witness :
    listingOut initSt (some ("a", "b")) = listingOut initSt none ∧
    lookupV ((listingOut c3Built (some ("k", "v"))).getD []) "k" = some (.str "v") ∧
    lookupV ((singleHostOut c3Built "h" (some ("k", "v"))).getD []) "k" = some (.str "v") :=
  ⟨c10_extra_amended.1 initSt (some ("a", "b")) rfl,
   c10_extra_amended.2.1 c3Built "k" "v" _ (by rfl) (by decide),
   c10_extra_amended.2.2 c3Built "h" "k" "v" _ (by rfl)⟩

/-! ## C4: the link-symmetry invariant -/

/-- The graph-mutation operations named by the symmetry claim, as invoked
on existing objects: `Group.add_host`, `Group.add_child`,
`Group.add_parent`.  (A bare `Host.add_group` is one-sided — see the
counterexample — so it is not an invariant-preserving operation.) -/
inductive MOp where
  | addHost (g h : Nat)
  | addChild (p c : Nat)
  | addParent (c p : Nat)

/-- Apply one mutation. -/
def applyM (st : St) : MOp → St
  | .addHost g h => addHostOp st g h
  | .addChild p c => addChild st p c
  | .addParent c p => addParent st c p

/-- Apply a sequence of mutations in order. -/
def applyMs (st : St) (ops : List MOp) : St := ops.foldl applyM st

/-- The symmetry-and-deduplication invariant: a host appears in a group's
member list exactly as often as the group appears in the host's group
list, and at most once; likewise for child/parent links between groups. -/
def LinkInv (st : St) : Prop :=
  (∀ g, g < st.groups.length → ∀ h, h < st.hosts.length →
    (getG st g).hosts.count h = (getH st h).groups.count g ∧
    (getG st g).hosts.count h ≤ 1) ∧
  (∀ p, p < st.groups.length → ∀ c, c < st.groups.length →
    (getG st p).children.count c = (getG st c).parents.count p ∧
    (getG st p).children.count c ≤ 1)

/-- Every id stored in a membership or link list denotes a real object. -/
def IdsOk (st : St) : Prop :=
  (∀ g, g < st.groups.length →
    (∀ x ∈ (getG st g).hosts, x < st.hosts.length) ∧
    (∀ x ∈ (getG st g).children, x < st.groups.length) ∧
    (∀ x ∈ (getG st g).parents, x < st.groups.length)) ∧
  (∀ h, h < st.hosts.length → ∀ x ∈ (getH st h).groups, x < st.groups.length)

/-- Side conditions of one operation: valid ids, and `add_parent` is not
invoked on the group named `all` (that call hands `all` to the redirecting
`add_child`, producing a one-sided link — see the counterexample). -/
def opOk (st : St) : MOp → Prop
  | .addHost g h => g < st.groups.length ∧ h < st.hosts.length
  | .addChild p c => p < st.groups.length ∧ c < st.groups.length
  | .addParent c p =>
    c < st.groups.length ∧ p < st.groups.length ∧ (getG st c).name ≠ "all"

/-- The joint effect of a deduplicated child/parent link: append `c` to
`p`'s children and `p` to `c`'s parents. -/
def link2 (st : St) (p c : Nat) : St :=
  setG (setG st p { getG st p with children := (getG st p).children ++ [c] }) c
    { getG (setG st p { getG st p with children := (getG st p).children ++ [c] }) c with
      parents :=
        (getG (setG st p { getG st p with children := (getG st p).children ++ [c] }) c).parents
          ++ [p] }

theorem setG_of_ge (st : St) (j : Nat) (g : Group) (h : st.groups.length ≤ j) :
    setG st j g = st := by
  simp [setG, set_of_ge _ _ _ h]

theorem setH_of_ge (st : St) (j : Nat) (x : Host) (h : st.hosts.length ≤ j) :
    setH st j x = st := by
  simp [setH, set_of_ge _ _ _ h]

theorem getG_setG_same_name (st : St) (j : Nat) (g : Group)
    (hname : g.name = (getG st j).name) (i : Nat) :
    (getG (setG st j g) i).name = (getG st i).name := by
  by_cases hj : j < st.groups.length
  · by_cases hij : i = j
    · subst hij
      rw [getG_setG_self _ _ _ hj, hname]
    · rw [getG_setG_ne _ _ _ _ (fun e => hij e.symm)]
  · rw [setG_of_ge _ _ _ (by omega)]

/-- `add_child` and `add_parent` never touch the host arena, never change
the number of groups, and never change a group's name, hosts or vars
fields, at any fuel. -/
theorem addCP_frame :
    ∀ n,
      (∀ st p c,
        (addChildF n st p c).hosts = st.hosts ∧
        (addChildF n st p c).groups.length = st.groups.length ∧
        (∀ i, (getG (addChildF n st p c) i).name = (getG st i).name ∧
              (getG (addChildF n st p c) i).hosts = (getG st i).hosts ∧
              (getG (addChildF n st p c) i).vars = (getG st i).vars)) ∧
      (∀ st c p,
        (addParentF n st c p).hosts = st.hosts ∧
        (addParentF n st c p).groups.length = st.groups.length ∧
        (∀ i, (getG (addParentF n st c p) i).name = (getG st i).name ∧
              (getG (addParentF n st c p) i).hosts = (getG st i).hosts ∧
              (getG (addParentF n st c p) i).vars = (getG st i).vars)) := by
  intro n
  induction n with
  | zero => exact ⟨fun st p c => ⟨rfl, rfl, fun i => ⟨rfl, rfl, rfl⟩⟩,
      fun st c p => ⟨rfl, rfl, fun i => ⟨rfl, rfl, rfl⟩⟩⟩
  | succ n ih =>
    constructor
    · intro st p c
      rw [addChildF]
      split
      · exact ⟨rfl, rfl, fun i => ⟨rfl, rfl, rfl⟩⟩
      · obtain ⟨hh, hl, hf⟩ := ih.2 (setG st p _) (redirect st c) p
        refine ⟨by rw [hh]; rfl, by rw [hl]; simp [setG], fun i => ?_⟩
        obtain ⟨hn, hho, hv⟩ := hf i
        refine ⟨?_, ?_, ?_⟩
        · rw [hn]
          exact getG_setG_same_name st p
            { getG st p with children := (getG st p).children ++ [redirect st c] } rfl i
        · rw [hho]
          by_cases hj : p < st.groups.length
          · by_cases hij : i = p
            · subst hij; rw [getG_setG_self _ _ _ hj]
            · rw [getG_setG_ne _ _ _ _ (fun e => hij e.symm)]
          · rw [setG_of_ge _ _ _ (by omega)]
        · rw [hv]
          by_cases hj : p < st.groups.length
          · by_cases hij : i = p
            · subst hij; rw [getG_setG_self _ _ _ hj]
            · rw [getG_setG_ne _ _ _ _ (fun e => hij e.symm)]
          · rw [setG_of_ge _ _ _ (by omega)]
    · intro st c p
      rw [addParentF]
      split
      · exact ⟨rfl, rfl, fun i => ⟨rfl, rfl, rfl⟩⟩
      · obtain ⟨hh, hl, hf⟩ := ih.1 (setG st c _) p c
        refine ⟨by rw [hh]; rfl, by rw [hl]; simp [setG], fun i => ?_⟩
        obtain ⟨hn, hho, hv⟩ := hf i
        refine ⟨?_, ?_, ?_⟩
        · rw [hn]
          exact getG_setG_same_name st c
            { getG st c with parents := (getG st c).parents ++ [p] } rfl i
        · rw [hho]
          by_cases hj : c < st.groups.length
          · by_cases hij : i = c
            · subst hij; rw [getG_setG_self _ _ _ hj]
            · rw [getG_setG_ne _ _ _ _ (fun e => hij e.symm)]
          · rw [setG_of_ge _ _ _ (by omega)]
        · rw [hv]
          by_cases hj : c < st.groups.length
          · by_cases hij : i = c
            · subst hij; rw [getG_setG_self _ _ _ hj]
            · rw [getG_setG_ne _ _ _ _ (fun e => hij e.symm)]
          · rw [setG_of_ge _ _ _ (by omega)]

theorem redirect_idem (st : St) (c : Nat) :
    redirect st (redirect st c) = redirect st c := by
  unfold redirect
  by_cases h : (getG st c).name = "all"
  · simp only [h, if_true]
    split <;> rfl
  · simp [h]

theorem redirect_setG_same_name (st : St) (j : Nat) (g : Group)
    (hname : g.name = (getG st j).name) (c : Nat) :
    redirect (setG st j g) c = redirect st c := by
  unfold redirect
  rw [getG_setG_same_name st j g hname c]

theorem setG_glen (st : St) (j : Nat) (g : Group) :
    (setG st j g).groups.length = st.groups.length := by simp [setG]

theorem getG_setG_keep {β : Type} (f : Group → β) (st : St) (j : Nat) (g : Group)
    (hf : f g = f (getG st j)) (i : Nat) :
    f (getG (setG st j g) i) = f (getG st i) := by
  by_cases hj : j < st.groups.length
  · by_cases hij : i = j
    · subst hij
      rw [getG_setG_self _ _ _ hj, hf]
    · rw [getG_setG_ne _ _ _ _ (fun e => hij e.symm)]
  · rw [setG_of_ge _ _ _ (by omega)]

theorem link2_hosts_arena (st : St) (p c : Nat) : (link2 st p c).hosts = st.hosts := rfl

theorem link2_glen (st : St) (p c : Nat) :
    (link2 st p c).groups.length = st.groups.length := by
  simp [link2, setG]

theorem getG_link2_name (st : St) (p c x : Nat) :
    (getG (link2 st p c) x).name = (getG st x).name := by
  unfold link2
  refine Eq.trans (getG_setG_keep Group.name _ _ _ ?_ x)
    (getG_setG_keep Group.name _ _ _ ?_ x) <;> rfl

theorem getG_link2_hosts (st : St) (p c x : Nat) :
    (getG (link2 st p c) x).hosts = (getG st x).hosts := by
  unfold link2
  refine Eq.trans (getG_setG_keep Group.hosts _ _ _ ?_ x)
    (getG_setG_keep Group.hosts _ _ _ ?_ x) <;> rfl

theorem getG_link2_vars (st : St) (p c x : Nat) :
    (getG (link2 st p c) x).vars = (getG st x).vars := by
  unfold link2
  refine Eq.trans (getG_setG_keep Group.vars _ _ _ ?_ x)
    (getG_setG_keep Group.vars _ _ _ ?_ x) <;> rfl

theorem redirect_link2 (st : St) (p c x : Nat) :
    redirect (link2 st p c) x = redirect st x := by
  unfold redirect
  rw [getG_link2_name]

theorem getG_link2_children (st : St) (p c x : Nat) (hp : p < st.groups.length) :
    (getG (link2 st p c) x).children =
      (getG st x).children ++ (if x = p then [c] else []) := by
  unfold link2
  have h1 : (getG (setG (setG st p
      { getG st p with children := (getG st p).children ++ [c] }) c
      { getG (setG st p { getG st p with children := (getG st p).children ++ [c] }) c with
        parents :=
          (getG (setG st p { getG st p with children := (getG st p).children ++ [c] })
            c).parents ++ [p] }) x).children =
      (getG (setG st p { getG st p with children := (getG st p).children ++ [c] })
        x).children := by
    refine getG_setG_keep Group.children _ _ _ ?_ x
    rfl
  rw [h1]
  by_cases hxp : x = p
  · rw [hxp, getG_setG_self _ _ _ hp]
    simp
  · rw [getG_setG_ne _ _ _ _ (fun e => hxp e.symm)]
    simp [hxp]

theorem getG_link2_parents (st : St) (p c x : Nat) (hc : c < st.groups.length) :
    (getG (link2 st p c) x).parents =
      (getG st x).parents ++ (if x = c then [p] else []) := by
  unfold link2
  have h0 : (getG (setG st p { getG st p with children := (getG st p).children ++ [c] })
      x).parents = (getG st x).parents := by
    refine getG_setG_keep Group.parents _ _ _ ?_ x
    rfl
  have h0c : (getG (setG st p { getG st p with children := (getG st p).children ++ [c] })
      c).parents = (getG st c).parents := by
    refine getG_setG_keep Group.parents _ _ _ ?_ c
    rfl
  by_cases hxc : x = c
  · rw [hxc]
    rw [getG_setG_self _ _ _ (by rw [setG_glen]; exact hc)]
    show (getG (setG st p { getG st p with children := (getG st p).children ++ [c] })
        c).parents ++ [p] = _
    rw [h0c]
    simp
  · rw [getG_setG_ne _ _ _ _ (fun e => hxc e.symm), h0]
    simp [hxc]

/-- Net effect of `Group.add_child` on a state where the link lists agree
with the symmetry invariant for the affected pair: either the link exists
and nothing changes, or both directed edges are appended. -/
theorem addChildF5_net (st : St) (p c : Nat) (hp : p < st.groups.length)
    (_hc : redirect st c < st.groups.length)
    (hiff : redirect st c ∈ (getG st p).children ↔
      p ∈ (getG st (redirect st c)).parents) :
    addChildF 5 st p c =
      if redirect st c ∈ (getG st p).children then st
      else link2 st p (redirect st c) := by
  by_cases h1 : redirect st c ∈ (getG st p).children
  · rw [if_pos h1]
    show addChildF (4 + 1) st p c = st
    rw [addChildF]
    simp only [if_pos h1]
  · rw [if_neg h1]
    have e1 : addChildF 5 st p c =
        addParentF 4
          (setG st p { getG st p with children := (getG st p).children ++ [redirect st c] })
          (redirect st c) p := by
      show addChildF (4 + 1) st p c = _
      rw [addChildF]
      simp only [if_neg h1]
    rw [e1]
    have hpar : (getG (setG st p
          { getG st p with children := (getG st p).children ++ [redirect st c] })
          (redirect st c)).parents = (getG st (redirect st c)).parents := by
      refine getG_setG_keep Group.parents _ _ _ ?_ (redirect st c)
      rfl
    have h2 : p ∉ (getG (setG st p
          { getG st p with children := (getG st p).children ++ [redirect st c] })
          (redirect st c)).parents := by
      rw [hpar]
      exact fun hmem => h1 (hiff.mpr hmem)
    show addParentF (3 + 1) _ _ _ = _
    rw [addParentF]
    simp only [if_neg h2]
    show addChildF (2 + 1) (link2 st p (redirect st c)) p (redirect st c) =
      link2 st p (redirect st c)
    rw [addChildF]
    have hmem2 : redirect (link2 st p (redirect st c)) (redirect st c) ∈
        (getG (link2 st p (redirect st c)) p).children := by
      rw [redirect_link2, redirect_idem, getG_link2_children st p (redirect st c) p hp]
      simp
    rw [if_pos hmem2]

theorem link2_swap (st : St) (p c : Nat) (hp : p < st.groups.length)
    (hc : c < st.groups.length) :
    setG (setG st c { getG st c with parents := (getG st c).parents ++ [p] }) p
      { getG (setG st c { getG st c with parents := (getG st c).parents ++ [p] }) p with
        children :=
          (getG (setG st c { getG st c with parents := (getG st c).parents ++ [p] }) p).children
            ++ [c] }
    = link2 st p c := by
  by_cases hpc : p = c
  · subst hpc
    unfold link2
    rw [getG_setG_self _ _ _ hp, getG_setG_self _ _ _ hp]
    simp only [setG, St.mk.injEq, true_and]
    rw [List.set_set, List.set_set]
  · unfold link2
    rw [getG_setG_ne _ _ _ _ (fun e => hpc (e.symm)), getG_setG_ne _ _ _ _ hpc]
    simp only [setG]
    rw [List.set_comm _ _ _ (fun e => hpc (e.symm))]

/-- Net effect of `Group.add_parent` on a group not named `all`. -/
theorem addParentF5_net (st : St) (c p : Nat) (hc : c < st.groups.length)
    (hp : p < st.groups.length) (hname : (getG st c).name ≠ "all")
    (hiff : p ∈ (getG st c).parents ↔ c ∈ (getG st p).children) :
    addParentF 5 st c p =
      if p ∈ (getG st c).parents then st else link2 st p c := by
  by_cases h1 : p ∈ (getG st c).parents
  · rw [if_pos h1]
    show addParentF (4 + 1) st c p = st
    rw [addParentF]
    simp only [if_pos h1]
  · rw [if_neg h1]
    have e1 : addParentF 5 st c p =
        addChildF 4
          (setG st c { getG st c with parents := (getG st c).parents ++ [p] }) p c := by
      show addParentF (4 + 1) st c p = _
      rw [addParentF]
      simp only [if_neg h1]
    rw [e1]
    have hred1 : redirect (setG st c { getG st c with parents := (getG st c).parents ++ [p] })
        c = c := by
      unfold redirect
      have hn : (getG (setG st c { getG st c with parents := (getG st c).parents ++ [p] })
          c).name = (getG st c).name := by
        refine getG_setG_keep Group.name _ _ _ ?_ c
        rfl
      rw [hn]
      simp [hname]
    have hch : (getG (setG st c { getG st c with parents := (getG st c).parents ++ [p] })
        p).children = (getG st p).children := by
      refine getG_setG_keep Group.children _ _ _ ?_ p
      rfl
    have h2 : redirect (setG st c { getG st c with parents := (getG st c).parents ++ [p] }) c
        ∉ (getG (setG st c { getG st c with parents := (getG st c).parents ++ [p] })
          p).children := by
      rw [hred1, hch]
      exact fun hmem => h1 (hiff.mpr hmem)
    show addChildF (3 + 1) _ _ _ = _
    rw [addChildF]
    simp only [if_neg h2]
    rw [hred1]
    rw [link2_swap st p c hp hc]
    show addParentF (2 + 1) (link2 st p c) c p = link2 st p c
    rw [addParentF]
    have hmem3 : p ∈ (getG (link2 st p c) c).parents := by
      rw [getG_link2_parents st p c c hc]
      simp
    rw [if_pos hmem3]

theorem getH_link2 (st : St) (p c y : Nat) : getH (link2 st p c) y = getH st y := rfl

theorem count_append_single (l : List Nat) (a b : Nat) :
    (l ++ [a]).count b = l.count b + (if a = b then 1 else 0) := by
  rw [List.count_append]
  by_cases h : a = b
  · simp [h]
  · have hz : List.count b [a] = 0 :=
      List.count_eq_zero.mpr (by simp only [List.mem_singleton]; exact fun e => h e.symm)
    simp [h, hz]

theorem count_append_opt (l : List Nat) (cond : Prop) [Decidable cond] (y z : Nat) :
    (l ++ if cond then [y] else []).count z = l.count z + (if cond ∧ y = z then 1 else 0) := by
  by_cases h : cond
  · simp only [h, if_true]
    rw [count_append_single]
    by_cases hyz : y = z <;> simp [hyz, h]
  · simp [h]

/-- Appending a missing symmetric edge preserves the invariant. -/
theorem link2_inv (st : St) (p c : Nat) (hp : p < st.groups.length)
    (hc : c < st.groups.length) (hInv : LinkInv st) (hIds : IdsOk st)
    (hnot : c ∉ (getG st p).children) : LinkInv (link2 st p c) ∧ IdsOk (link2 st p c) := by
  constructor
  · constructor
    · intro g hg h hh
      rw [link2_glen] at hg
      rw [link2_hosts_arena] at hh
      rw [getG_link2_hosts, getH_link2]
      exact hInv.1 g hg h hh
    · intro a ha b hb
      rw [link2_glen] at ha hb
      obtain ⟨heq, hle⟩ := hInv.2 a ha b hb
      rw [getG_link2_children _ _ _ _ hp, getG_link2_parents _ _ _ _ hc]
      rw [count_append_opt, count_append_opt, heq]
      have hcond : (a = p ∧ c = b) ↔ (b = c ∧ p = a) := by
        constructor <;> rintro ⟨e1, e2⟩ <;> exact ⟨e2.symm, e1.symm⟩
      constructor
      · rw [if_congr hcond rfl rfl]
      · by_cases hcase : a = p ∧ c = b
        · obtain ⟨he1, he2⟩ := hcase
          subst he1
          subst he2
          have hzero : (getG st a).children.count c = 0 := List.count_eq_zero.mpr hnot
          rw [heq] at hzero
          simp [hzero]
        · simp [hcase]
          rw [heq] at hle
          exact hle
  · constructor
    · intro g hg
      rw [link2_glen] at hg
      obtain ⟨hh, hch, hpa⟩ := hIds.1 g hg
      refine ⟨?_, ?_, ?_⟩
      · intro x hx
        rw [getG_link2_hosts] at hx
        rw [link2_hosts_arena]
        exact hh x hx
      · intro x hx
        rw [getG_link2_children _ _ _ _ hp] at hx
        rw [link2_glen]
        rcases List.mem_append.mp hx with hx1 | hx2
        · exact hch x hx1
        · by_cases hgp : g = p
          · simp [hgp] at hx2
            rw [hx2]
            exact hc
          · simp [hgp] at hx2
      · intro x hx
        rw [getG_link2_parents _ _ _ _ hc] at hx
        rw [link2_glen]
        rcases List.mem_append.mp hx with hx1 | hx2
        · exact hpa x hx1
        · by_cases hgc : g = c
          · simp [hgc] at hx2
            rw [hx2]
            exact hp
          · simp [hgc] at hx2
    · intro h hh
      rw [link2_hosts_arena] at hh
      intro x hx
      rw [getH_link2] at hx
      rw [link2_glen]
      exact hIds.2 h hh x hx

/-- The symmetric host/group link as a single state update. -/
def hlink (st : St) (g h : Nat) : St :=
  setH (setG st g { getG st g with hosts := (getG st g).hosts ++ [h] }) h
    { getH st h with groups := (getH st h).groups ++ [g] }

theorem addHostOp_net (st : St) (g h : Nat)
    (hiff : h ∈ (getG st g).hosts ↔ g ∈ (getH st h).groups) :
    addHostOp st g h = if h ∈ (getG st g).hosts then st else hlink st g h := by
  by_cases h1 : h ∈ (getG st g).hosts
  · rw [if_pos h1]
    show (if h ∈ (getG st g).hosts then st
      else hostAddGroup (setG st g { getG st g with hosts := (getG st g).hosts ++ [h] }) h g)
      = st
    rw [if_pos h1]
  · rw [if_neg h1]
    show (if h ∈ (getG st g).hosts then st
      else hostAddGroup (setG st g { getG st g with hosts := (getG st g).hosts ++ [h] }) h g)
      = hlink st g h
    rw [if_neg h1]
    have h2 : g ∉ (getH (setG st g { getG st g with hosts := (getG st g).hosts ++ [h] })
        h).groups := by
      rw [getH_setG]
      exact fun hm => h1 (hiff.mpr hm)
    show (if g ∈ (getH (setG st g { getG st g with hosts := (getG st g).hosts ++ [h] })
        h).groups then _ else _) = hlink st g h
    rw [if_neg h2]
    rfl

theorem hlink_glen (st : St) (g h : Nat) :
    (hlink st g h).groups.length = st.groups.length := by
  simp [hlink, setH, setG]

theorem hlink_hlen (st : St) (g h : Nat) :
    (hlink st g h).hosts.length = st.hosts.length := by
  simp [hlink, setH, setG]

theorem getG_hlink_hosts (st : St) (g h x : Nat) (hg : g < st.groups.length) :
    (getG (hlink st g h) x).hosts =
      (getG st x).hosts ++ (if x = g then [h] else []) := by
  unfold hlink
  rw [getG_setH]
  by_cases hxg : x = g
  · rw [hxg, getG_setG_self _ _ _ hg]
    simp
  · rw [getG_setG_ne _ _ _ _ (fun e => hxg e.symm)]
    simp [hxg]

theorem getG_hlink_children (st : St) (g h x : Nat) :
    (getG (hlink st g h) x).children = (getG st x).children := by
  unfold hlink
  rw [getG_setH]
  refine getG_setG_keep Group.children _ _ _ ?_ x
  rfl

theorem getG_hlink_parents (st : St) (g h x : Nat) :
    (getG (hlink st g h) x).parents = (getG st x).parents := by
  unfold hlink
  rw [getG_setH]
  refine getG_setG_keep Group.parents _ _ _ ?_ x
  rfl

theorem getG_hlink_name (st : St) (g h x : Nat) :
    (getG (hlink st g h) x).name = (getG st x).name := by
  unfold hlink
  rw [getG_setH]
  refine getG_setG_keep Group.name _ _ _ ?_ x
  rfl

theorem getH_hlink_groups (st : St) (g h y : Nat) (hh : h < st.hosts.length) :
    (getH (hlink st g h) y).groups =
      (getH st y).groups ++ (if y = h then [g] else []) := by
  unfold hlink
  by_cases hyh : y = h
  · rw [hyh, getH_setH_self _ _ _ (by simp [setG]; exact hh)]
    simp
  · rw [getH_setH_ne _ _ _ _ (fun e => hyh e.symm), getH_setG]
    simp [hyh]

/-- Appending a missing symmetric host/group link preserves the invariant. -/
theorem hlink_inv (st : St) (g h : Nat) (hg : g < st.groups.length)
    (hh : h < st.hosts.length) (hInv : LinkInv st) (hIds : IdsOk st)
    (hnot : h ∉ (getG st g).hosts) : LinkInv (hlink st g h) ∧ IdsOk (hlink st g h) := by
  constructor
  · constructor
    · intro a ha b hb
      rw [hlink_glen] at ha
      rw [hlink_hlen] at hb
      obtain ⟨heq, hle⟩ := hInv.1 a ha b hb
      rw [getG_hlink_hosts _ _ _ _ hg, getH_hlink_groups _ _ _ _ hh]
      rw [count_append_opt, count_append_opt, heq]
      have hcond : (a = g ∧ h = b) ↔ (b = h ∧ g = a) := by
        constructor <;> rintro ⟨e1, e2⟩ <;> exact ⟨e2.symm, e1.symm⟩
      constructor
      · rw [if_congr hcond rfl rfl]
      · by_cases hcase : a = g ∧ h = b
        · obtain ⟨he1, he2⟩ := hcase
          subst he1
          subst he2
          have hzero : (getG st a).hosts.count h = 0 := List.count_eq_zero.mpr hnot
          rw [heq] at hzero
          simp [hzero]
        · simp [hcase]
          rw [heq] at hle
          exact hle
    · intro a ha b hb
      rw [hlink_glen] at ha hb
      rw [getG_hlink_children, getG_hlink_parents]
      exact hInv.2 a ha b hb
  · constructor
    · intro a ha
      rw [hlink_glen] at ha
      obtain ⟨hho, hch, hpa⟩ := hIds.1 a ha
      refine ⟨?_, ?_, ?_⟩
      · intro x hx
        rw [getG_hlink_hosts _ _ _ _ hg] at hx
        rw [hlink_hlen]
        rcases List.mem_append.mp hx with hx1 | hx2
        · exact hho x hx1
        · by_cases hag : a = g
          · simp [hag] at hx2
            rw [hx2]
            exact hh
          · simp [hag] at hx2
      · intro x hx
        rw [getG_hlink_children] at hx
        rw [hlink_glen]
        exact hch x hx
      · intro x hx
        rw [getG_hlink_parents] at hx
        rw [hlink_glen]
        exact hpa x hx
    · intro a ha
      rw [hlink_hlen] at ha
      intro x hx
      rw [getH_hlink_groups _ _ _ _ hh] at hx
      rw [hlink_glen]
      rcases List.mem_append.mp hx with hx1 | hx2
      · exact hIds.2 a ha x hx1
      · by_cases hah : a = h
        · simp [hah] at hx2
          rw [hx2]
          exact hg
        · simp [hah] at hx2

theorem mem_iff_of_count_eq {l1 l2 : List Nat} {a b : Nat}
    (h : l1.count a = l2.count b) : a ∈ l1 ↔ b ∈ l2 := by
  constructor <;> intro hm
  · have := List.count_pos_iff.mpr hm
    exact List.count_pos_iff.mp (by omega)
  · have := List.count_pos_iff.mpr hm
    exact List.count_pos_iff.mp (by omega)

theorem redirect_lt (st : St) (c : Nat) (h2 : 2 ≤ st.groups.length)
    (hc : c < st.groups.length) : redirect st c < st.groups.length := by
  unfold redirect
  split
  · omega
  · exact hc

/-- One valid operation preserves the invariant. -/
theorem applyM_pres (st : St) (op : MOp) (h2 : 2 ≤ st.groups.length)
    (hInv : LinkInv st) (hIds : IdsOk st) (hok : opOk st op) :
    LinkInv (applyM st op) ∧ IdsOk (applyM st op) := by
  cases op with
  | addHost g h =>
    obtain ⟨hg, hh⟩ := hok
    have hiff : h ∈ (getG st g).hosts ↔ g ∈ (getH st h).groups :=
      mem_iff_of_count_eq (hInv.1 g hg h hh).1
    show LinkInv (addHostOp st g h) ∧ IdsOk (addHostOp st g h)
    rw [addHostOp_net st g h hiff]
    split
    · exact ⟨hInv, hIds⟩
    · rename_i hnot
      exact hlink_inv st g h hg hh hInv hIds hnot
  | addChild p c =>
    obtain ⟨hp, hc⟩ := hok
    have hc2 : redirect st c < st.groups.length := redirect_lt st c h2 hc
    have hiff : redirect st c ∈ (getG st p).children ↔
        p ∈ (getG st (redirect st c)).parents :=
      mem_iff_of_count_eq (hInv.2 p hp (redirect st c) hc2).1
    show LinkInv (addChildF 5 st p c) ∧ IdsOk (addChildF 5 st p c)
    rw [addChildF5_net st p c hp hc2 hiff]
    split
    · exact ⟨hInv, hIds⟩
    · rename_i hnot
      exact link2_inv st p (redirect st c) hp hc2 hInv hIds hnot
  | addParent c p =>
    obtain ⟨hc, hp, hname⟩ := hok
    have hiff : p ∈ (getG st c).parents ↔ c ∈ (getG st p).children :=
      (mem_iff_of_count_eq (hInv.2 p hp c hc).1).symm
    show LinkInv (addParentF 5 st c p) ∧ IdsOk (addParentF 5 st c p)
    rw [addParentF5_net st c p hc hp hname hiff]
    split
    · exact ⟨hInv, hIds⟩
    · rename_i h1
      exact link2_inv st p c hp hc hInv hIds (fun hm => h1 (hiff.mpr hm))

theorem getG_addHostOp_name (st : St) (g h i : Nat) :
    (getG (addHostOp st g h) i).name = (getG st i).name := by
  show (getG (if h ∈ (getG st g).hosts then st
    else hostAddGroup (setG st g { getG st g with hosts := (getG st g).hosts ++ [h] }) h g)
    i).name = _
  split
  · rfl
  · show (getG (if g ∈ (getH (setG st g { getG st g with hosts := (getG st g).hosts ++ [h] })
        h).groups then _ else _) i).name = _
    split
    · refine getG_setG_keep Group.name _ _ _ ?_ i
      rfl
    · rw [getG_setH]
      refine getG_setG_keep Group.name _ _ _ ?_ i
      rfl

theorem applyM_glen (st : St) (op : MOp) :
    (applyM st op).groups.length = st.groups.length := by
  cases op with
  | addHost g h => exact addHostOp_groups_length st g h
  | addChild p c => exact ((addCP_frame 5).1 st p c).2.1
  | addParent c p => exact ((addCP_frame 5).2 st c p).2.1

theorem applyM_hlen (st : St) (op : MOp) :
    (applyM st op).hosts.length = st.hosts.length := by
  cases op with
  | addHost g h => exact addHostOp_hosts_length st g h
  | addChild p c => rw [show (applyM st (MOp.addChild p c)).hosts = st.hosts
      from ((addCP_frame 5).1 st p c).1]
  | addParent c p => rw [show (applyM st (MOp.addParent c p)).hosts = st.hosts
      from ((addCP_frame 5).2 st c p).1]

theorem applyM_gname (st : St) (op : MOp) (i : Nat) :
    (getG (applyM st op) i).name = (getG st i).name := by
  cases op with
  | addHost g h => exact getG_addHostOp_name st g h i
  | addChild p c => exact (((addCP_frame 5).1 st p c).2.2 i).1
  | addParent c p => exact (((addCP_frame 5).2 st c p).2.2 i).1

/-- C4 (amended): after any sequence of `add_host`, `add_child` and
`add_parent` operations on existing objects, in which `add_parent` is
never invoked on the group named `all`, link symmetry and deduplication
hold: a host appears in a group's member list exactly as often as the
group appears in the host's group list and at most once, and a group
appears in a group's children list exactly as often as the latter appears
in the former's parents list and at most once — however many times the
same link is declared.  (A bare `Host.add_group` and `add_parent` on `all`
each break the biconditional; see the counterexample.) -/
theorem c4_symmetry_amended :
    ∀ (ops : List MOp) (st : St), 2 ≤ st.groups.length → LinkInv st → IdsOk st →
      (∀ op ∈ ops, opOk st op) → LinkInv (applyMs st ops) := by
  intro ops
  induction ops with
  | nil =>
    intro st _ hInv _ _
    exact hInv
  | cons op rest ih =>
    intro st h2 hInv hIds hops
    have hok := hops op (List.mem_cons_self op rest)
    obtain ⟨hInv2, hIds2⟩ := applyM_pres st op h2 hInv hIds hok
    have hglen := applyM_glen st op
    have hhlen := applyM_hlen st op
    show LinkInv (applyMs (applyM st op) rest)
    apply ih (applyM st op) (by rw [hglen]; exact h2) hInv2 hIds2
    intro op2 hmem
    have hok2 := hops op2 (List.mem_cons_of_mem op hmem)
    cases op2 with
    | addHost g h =>
      exact ⟨by rw [hglen]; exact hok2.1, by rw [hhlen]; exact hok2.2⟩
    | addChild p c =>
      exact ⟨by rw [hglen]; exact hok2.1, by rw [hglen]; exact hok2.2⟩
    | addParent c p =>
      refine ⟨by rw [hglen]; exact hok2.1, by rw [hglen]; exact hok2.2.1, ?_⟩
      rw [applyM_gname st op c]
      exact hok2.2.2

instance (st : St) : Decidable (LinkInv st) := by
  unfold LinkInv
  infer_instance

instance (st : St) : Decidable (IdsOk st) := by
  unfold IdsOk
  infer_instance

instance (st : St) (op : MOp) : Decidable (opOk st op) := by
  cases op <;> (unfold opOk; infer_instance)

/-- The populated store used by the C4 witness: one host, one extra group. -/
def c4wSt : St :=
  { (newHost initSt "h").2 with
    groups := (newHost initSt "h").2.groups ++ [⟨"g", [], [], [], []⟩] }

/-- Witness for `c4_symmetry_amended`: a concrete run of the three
operations, with every side condition checked by evaluation. -/
theorem c4_symmetry_amended_witness :
    LinkInv (applyMs c4wSt
      [MOp.addHost 2 0, MOp.addHost 2 0, MOp.addChild 2 1, MOp.addChild 2 1,
       MOp.addParent 2 0, MOp.addParent 2 0]) :=
  c4_symmetry_amended
    [MOp.addHost 2 0, MOp.addHost 2 0, MOp.addChild 2 1, MOp.addChild 2 1,
     MOp.addParent 2 0, MOp.addParent 2 0]
    c4wSt (by decide) (by decide) (by decide) (by decide)

/-! ## The store invariant maintained by the builder -/

/-- Invariant of every state the builder reaches: the two bootstrap groups
exist with `all` first, group and host names are unique, and `all`'s
member list is exactly the host arena in creation order (every host
registers there on construction). -/
def MasterInv (st : St) : Prop :=
  2 ≤ st.groups.length ∧
  (getG st 0).name = "all" ∧
  (st.groups.map Group.name).Nodup ∧
  (st.hosts.map Host.name).Nodup ∧
  (getG st 0).hosts = List.range st.hosts.length

instance (st : St) : Decidable (MasterInv st) := by
  unfold MasterInv
  infer_instance

/-- `st2` extends `st`: arenas only grow, and existing groups keep their
names. -/
def Ext (st st2 : St) : Prop :=
  st.groups.length ≤ st2.groups.length ∧ st.hosts.length ≤ st2.hosts.length ∧
  ∀ i, i < st.groups.length → (getG st2 i).name = (getG st i).name

theorem Ext.refl (st : St) : Ext st st := ⟨le_refl _, le_refl _, fun _ _ => rfl⟩

theorem Ext.comp {a b c : St} (h1 : Ext a b) (h2 : Ext b c) : Ext a c :=
  ⟨h1.1.trans h2.1, h1.2.1.trans h2.2.1,
   fun i hi => (h2.2.2 i (lt_of_lt_of_le hi h1.1)).trans (h1.2.2 i hi)⟩

mutual
/-- No (possibly nested) `group: all` record carries `parents` entries. -/
def entryOK : YEntry → Prop
  | .str _ => True
  | .record g _ _ _ _ hs ch ps gs =>
    (g = some "all" → ps = []) ∧ entryOKL hs ∧ entryOKL ch ∧ entryOKL ps ∧ entryOKL gs

/-- `entryOK` over a list of entries. -/
def entryOKL : List YEntry → Prop
  | [] => True
  | e :: rest => entryOK e ∧ entryOKL rest
end

theorem entryOKL_mem : ∀ (l : List YEntry), entryOKL l → ∀ e ∈ l, entryOK e := by
  intro l
  induction l with
  | nil => intro _ e he; simp at he
  | cons x rest ih =>
    intro h e he
    rcases List.mem_cons.mp he with rfl | hm
    · exact h.1
    · exact ih h.2 e hm

/-! ## More list utilities -/

theorem getD_lt {α} [Inhabited α] (l : List α) (i : Nat) (h : i < l.length) :
    l.getD i default = l[i] := by
  induction l generalizing i with
  | nil => simp at h
  | cons b rest ih =>
    cases i with
    | zero => rfl
    | succ j => simpa using ih j (by simpa using h)

theorem map_set_keep {α β} [Inhabited α] (l : List α) (i : Nat) (a : α) (f : α → β)
    (hf : f a = f (l.getD i default)) : (l.set i a).map f = l.map f := by
  induction l generalizing i with
  | nil => rfl
  | cons b rest ih =>
    cases i with
    | zero => simpa using hf
    | succ j =>
      simp only [List.set, List.map]
      rw [ih j (by simpa using hf)]

theorem nodup_append_singleton {α} (l : List α) (a : α) (h1 : l.Nodup) (h2 : a ∉ l) :
    (l ++ [a]).Nodup := by
  simp [List.nodup_append, h1, h2]

theorem map_eq_of_pointwise (st st2 : St)
    (hlen : st2.groups.length = st.groups.length)
    (hpt : ∀ i, (getG st2 i).name = (getG st i).name) :
    st2.groups.map Group.name = st.groups.map Group.name := by
  apply List.ext_getElem
  · simp [hlen]
  · intro i h1 h2
    have hb1 : i < st2.groups.length := by simpa using h1
    have hb2 : i < st.groups.length := by simpa using h2
    have e1 : (getG st2 i).name = st2.groups[i].name := by
      rw [getG, getD_lt _ _ hb1]
    have e2 : (getG st i).name = st.groups[i].name := by
      rw [getG, getD_lt _ _ hb2]
    simp only [List.getElem_map]
    rw [← e1, ← e2]
    exact hpt i

theorem maph_eq_of_pointwise (st st2 : St)
    (hlen : st2.hosts.length = st.hosts.length)
    (hpt : ∀ i, (getH st2 i).name = (getH st i).name) :
    st2.hosts.map Host.name = st.hosts.map Host.name := by
  apply List.ext_getElem
  · simp [hlen]
  · intro i h1 h2
    have hb1 : i < st2.hosts.length := by simpa using h1
    have hb2 : i < st.hosts.length := by simpa using h2
    have e1 : (getH st2 i).name = st2.hosts[i].name := by
      rw [getH, getD_lt _ _ hb1]
    have e2 : (getH st i).name = st.hosts[i].name := by
      rw [getH, getD_lt _ _ hb2]
    simp only [List.getElem_map]
    rw [← e1, ← e2]
    exact hpt i

theorem findHostAux_mem (st : St) (l : List Nat) (n : String) (hid : Nat)
    (h : findHostAux st l n = some hid) : hid ∈ l := by
  induction l with
  | nil => simp [findHostAux] at h
  | cons x rest ih =>
    by_cases hx : (getH st x).name = n
    · simp [findHostAux, hx] at h
      simp [h]
    · simp [findHostAux, hx] at h
      simp [ih h]

theorem findHostAux_none_names (st : St) (l : List Nat) (n : String)
    (h : findHostAux st l n = none) : ∀ x ∈ l, (getH st x).name ≠ n := by
  induction l with
  | nil => simp
  | cons x rest ih =>
    by_cases hx : (getH st x).name = n
    · simp [findHostAux, hx] at h
    · simp [findHostAux, hx] at h
      intro y hy
      rcases List.mem_cons.mp hy with rfl | hm
      · exact hx
      · exact ih h y hm

theorem findHostAux_none_of_names (st : St) (l : List Nat) (n : String)
    (h : ∀ x ∈ l, (getH st x).name ≠ n) : findHostAux st l n = none := by
  induction l with
  | nil => rfl
  | cons x rest ih =>
    have hx := h x (List.mem_cons_self x rest)
    simp [findHostAux, hx]
    exact ih (fun y hy => h y (List.mem_cons_of_mem x hy))

theorem findHostAux_append (st : St) (l1 l2 : List Nat) (n : String)
    (h : findHostAux st l1 n = none) :
    findHostAux st (l1 ++ l2) n = findHostAux st l2 n := by
  induction l1 with
  | nil => rfl
  | cons x rest ih =>
    by_cases hx : (getH st x).name = n
    · simp [findHostAux, hx] at h
    · simp [findHostAux, hx] at h ⊢
      exact ih h

/-! ## Preservation of the store invariant by each primitive -/

/-- Bundle: the invariant holds afterwards, the state is an extension, and
`all`'s parents list is unchanged. -/
def PPres (st st2 : St) : Prop :=
  MasterInv st2 ∧ Ext st st2 ∧ (getG st2 0).parents = (getG st 0).parents

theorem PPres.trans {a b c : St} (h1 : PPres a b) (h2 : PPres b c) : PPres a c :=
  ⟨h2.1, h1.2.1.comp h2.2.1, h2.2.2.trans h1.2.2⟩

theorem PPres.selfOf {a : St} (hM : MasterInv a) : PPres a a := ⟨hM, Ext.refl a, rfl⟩

theorem gocg_pres (n : String) (st : St) (hM : MasterInv st) :
    PPres st (getOrCreateGroup n st).2 ∧
    (getOrCreateGroup n st).1 < (getOrCreateGroup n st).2.groups.length ∧
    (getG (getOrCreateGroup n st).2 (getOrCreateGroup n st).1).name = n := by
  unfold getOrCreateGroup
  cases hf : findGroup st n with
  | some gid =>
    exact ⟨PPres.selfOf hM, findGroupAux_lt _ _ _ hf, findGroupAux_name _ _ _ hf⟩
  | none =>
    have h0 : (0 : Nat) < st.groups.length := by
      have := hM.1
      omega
    have hget : ∀ i, i < st.groups.length →
        getG { st with groups := st.groups ++ [⟨n, [], [], [], []⟩] } i = getG st i := by
      intro i hi
      show (st.groups ++ [_]).getD i default = _
      rw [getD_append_lt _ _ _ _ hi]
      rfl
    have hnotin : n ∉ st.groups.map Group.name := by
      intro hmem
      obtain ⟨g, hg, hgn⟩ := List.mem_map.mp hmem
      exact findGroupAux_none _ _ hf g hg hgn
    refine ⟨⟨⟨?_, ?_, ?_, ?_, ?_⟩, ⟨?_, ?_, ?_⟩, ?_⟩, ?_, ?_⟩
    · simp only [List.length_append, List.length_singleton]
      omega
    · rw [hget 0 h0]
      exact hM.2.1
    · simp only [List.map_append]
      exact nodup_append_singleton _ _ hM.2.2.1 hnotin
    · exact hM.2.2.2.1
    · rw [hget 0 h0]
      exact hM.2.2.2.2
    · simp
    · exact le_refl _
    · intro i hi
      rw [hget i hi]
    · rw [hget 0 h0]
    · simp
    · show ((st.groups ++ [_]).getD st.groups.length default).name = n
      rw [getD_append_len]

theorem getH_hlink_name (st : St) (g h y : Nat) :
    (getH (hlink st g h) y).name = (getH st y).name := by
  unfold hlink
  by_cases hyh : y = h
  · by_cases hlt : h < st.hosts.length
    · rw [hyh, getH_setH_self _ _ _ (by simp [setG]; exact hlt)]
    · rw [setH_of_ge _ _ _ (by simp [setG]; omega), getH_setG]
  · rw [getH_setH_ne _ _ _ _ (fun e => hyh e.symm), getH_setG]

theorem getG_addHostOp_parents (st : St) (g h i : Nat) :
    (getG (addHostOp st g h) i).parents = (getG st i).parents := by
  show (getG (if h ∈ (getG st g).hosts then st
    else hostAddGroup (setG st g { getG st g with hosts := (getG st g).hosts ++ [h] }) h g)
    i).parents = _
  split
  · rfl
  · show (getG (if g ∈ (getH (setG st g { getG st g with hosts := (getG st g).hosts ++ [h] })
        h).groups then _ else _) i).parents = _
    split
    · refine getG_setG_keep Group.parents _ _ _ ?_ i
      rfl
    · rw [getG_setH]
      refine getG_setG_keep Group.parents _ _ _ ?_ i
      rfl

theorem getG_addHostOp_ne (st : St) (g h i : Nat) (hne : g ≠ i) :
    getG (addHostOp st g h) i = getG st i := by
  show getG (if h ∈ (getG st g).hosts then st
    else hostAddGroup (setG st g { getG st g with hosts := (getG st g).hosts ++ [h] }) h g)
    i = _
  split
  · rfl
  · show getG (if g ∈ (getH (setG st g { getG st g with hosts := (getG st g).hosts ++ [h] })
        h).groups then _ else _) i = _
    split
    · exact getG_setG_ne _ _ _ _ hne
    · rw [getG_setH]
      exact getG_setG_ne _ _ _ _ hne

theorem addHostOp_mem_eq (st : St) (g h : Nat) (hm : h ∈ (getG st g).hosts) :
    addHostOp st g h = st := by
  show (if h ∈ (getG st g).hosts then st else _) = st
  rw [if_pos hm]

theorem addHostOp_pres (st : St) (g h : Nat) (hh : h < st.hosts.length)
    (hM : MasterInv st) : PPres st (addHostOp st g h) := by
  have hglen := addHostOp_groups_length st g h
  have hhlen := addHostOp_hosts_length st g h
  refine ⟨⟨?_, ?_, ?_, ?_, ?_⟩, ⟨?_, ?_, ?_⟩, ?_⟩
  · rw [hglen]
    exact hM.1
  · rw [getG_addHostOp_name]
    exact hM.2.1
  · rw [map_eq_of_pointwise st (addHostOp st g h) hglen (getG_addHostOp_name st g h)]
    exact hM.2.2.1
  · rw [maph_eq_of_pointwise st (addHostOp st g h) hhlen (getH_addHostOp_name st g h)]
    exact hM.2.2.2.1
  · by_cases hg0 : g = 0
    · subst hg0
      have hm : h ∈ (getG st 0).hosts := by
        rw [hM.2.2.2.2]
        exact List.mem_range.mpr hh
      rw [addHostOp_mem_eq st 0 h hm, hM.2.2.2.2]
    · rw [getG_addHostOp_ne st g h 0 hg0, hhlen]
      exact hM.2.2.2.2
  · rw [hglen]
  · rw [hhlen]
  · intro i _
    rw [getG_addHostOp_name]
  · exact getG_addHostOp_parents st g h 0

theorem goch_pres (n : String) (st : St) (hM : MasterInv st) :
    PPres st (getOrCreateHost n st).2 ∧
    (getOrCreateHost n st).1 < (getOrCreateHost n st).2.hosts.length := by
  unfold getOrCreateHost
  cases hf : findHost st n with
  | some hid =>
    have hmem : hid ∈ (getG st 0).hosts := findHostAux_mem st _ n hid hf
    rw [hM.2.2.2.2] at hmem
    exact ⟨PPres.selfOf hM, List.mem_range.mp hmem⟩
  | none =>
    unfold newHost
    simp only
    have h0 : (0 : Nat) < st.groups.length := by
      have := hM.1
      omega
    have hl1 : ({ st with hosts := st.hosts ++ [⟨n, [], []⟩] } : St).hosts.length
        = st.hosts.length + 1 := by simp
    have hg1 : ∀ i, getG { st with hosts := st.hosts ++ [⟨n, [], []⟩] } i = getG st i :=
      fun i => rfl
    have hnames1 : ({ st with hosts := st.hosts ++ [⟨n, [], []⟩] } : St).hosts.map Host.name
        = st.hosts.map Host.name ++ [n] := by simp
    have hnodup1 : (({ st with hosts := st.hosts ++ [⟨n, [], []⟩] } : St).hosts.map
        Host.name).Nodup := by
      rw [hnames1]
      refine nodup_append_singleton _ _ hM.2.2.2.1 ?_
      intro hmem
      obtain ⟨x, hx, hxn⟩ := List.mem_map.mp hmem
      obtain ⟨i, hi, hie⟩ := List.mem_iff_getElem.mp hx
      have hnames := findHostAux_none_names st _ n hf
      have hne : (getH st i).name ≠ n := by
        apply hnames
        rw [hM.2.2.2.2]
        exact List.mem_range.mpr hi
      apply hne
      rw [getH, getD_lt _ _ hi, hie, hxn]
    have hnotin : st.hosts.length ∉ (getG { st with hosts := st.hosts ++ [⟨n, [], []⟩] }
        0).hosts := by
      rw [hg1, hM.2.2.2.2]
      simp
    have hgr : (getH { st with hosts := st.hosts ++ [⟨n, [], []⟩] } st.hosts.length).groups
        = [] := by
      show ((st.hosts ++ [(⟨n, [], []⟩ : Host)]).getD st.hosts.length default).groups = []
      rw [getD_append_len]
    have hiff : st.hosts.length ∈ (getG { st with hosts := st.hosts ++ [⟨n, [], []⟩] }
        0).hosts ↔ 0 ∈ (getH { st with hosts := st.hosts ++ [⟨n, [], []⟩] }
        st.hosts.length).groups := by
      rw [hgr]
      simp [hnotin]
    rw [addHostOp_net _ _ _ hiff, if_neg hnotin]
    have hMA : MasterInv (hlink { st with hosts := st.hosts ++ [⟨n, [], []⟩] } 0
        st.hosts.length) := by
      refine ⟨?_, ?_, ?_, ?_, ?_⟩
      · rw [hlink_glen]
        exact hM.1
      · rw [getG_hlink_name, hg1]
        exact hM.2.1
      · rw [map_eq_of_pointwise _ _ (hlink_glen _ _ _) (getG_hlink_name _ _ _)]
        exact hM.2.2.1
      · rw [maph_eq_of_pointwise _ _ (hlink_hlen _ _ _) (getH_hlink_name _ _ _)]
        exact hnodup1
      · rw [getG_hlink_hosts _ _ _ _ (by exact h0), hlink_hlen, hl1, hg1, hM.2.2.2.2]
        simp [List.range_succ]
    have hstep2 := addHostOp_pres (hlink { st with hosts := st.hosts ++ [⟨n, [], []⟩] } 0
      st.hosts.length) 1 st.hosts.length (by rw [hlink_hlen, hl1]; omega) hMA
    constructor
    · refine ⟨hstep2.1, ?_, ?_⟩
      · refine Ext.comp ?_ hstep2.2.1
        refine ⟨?_, ?_, ?_⟩
        · rw [hlink_glen]
        · rw [hlink_hlen, hl1]
          omega
        · intro i _
          rw [getG_hlink_name, hg1]
      · rw [hstep2.2.2, getG_hlink_parents, hg1]
    · have e1 := addHostOp_hosts_length (hlink { st with hosts := st.hosts ++ [⟨n, [], []⟩] }
        0 st.hosts.length) 1 st.hosts.length
      rw [e1, hlink_hlen, hl1]
      omega

theorem setVarT_pres (st : St) (t : Option Tgt) (k : String) (v : Value) (st2 : St)
    (h : setVarT st t k v = some st2) (hM : MasterInv st) : PPres st st2 := by
  cases t with
  | none => simp [setVarT] at h
  | some tgt =>
    cases tgt with
    | host hid =>
      simp only [setVarT, Option.some.injEq] at h
      subst h
      have hlen : (setH st hid { getH st hid with
          vars := setPair (getH st hid).vars k v }).hosts.length = st.hosts.length :=
        setH_hosts_length st hid _
      have hname : ∀ i, (getH (setH st hid { getH st hid with
          vars := setPair (getH st hid).vars k v }) i).name = (getH st i).name := by
        intro i
        by_cases hij : i = hid
        · subst hij
          by_cases hlt : i < st.hosts.length
          · rw [getH_setH_self _ _ _ hlt]
          · rw [setH_of_ge _ _ _ (by omega)]
        · rw [getH_setH_ne _ _ _ _ (fun e => hij e.symm)]
      refine ⟨⟨hM.1, hM.2.1, hM.2.2.1, ?_, ?_⟩, ⟨le_refl _, by rw [hlen], fun i _ => rfl⟩, rfl⟩
      · rw [maph_eq_of_pointwise st _ hlen hname]
        exact hM.2.2.2.1
      · show (getG st 0).hosts = _
        rw [hlen]
        exact hM.2.2.2.2
    | group gid =>
      simp only [setVarT, Option.some.injEq] at h
      subst h
      have hlen : (setG st gid { getG st gid with
          vars := setPair (getG st gid).vars k v }).groups.length = st.groups.length :=
        setG_groups_length st gid _
      have hname : ∀ i, (getG (setG st gid { getG st gid with
          vars := setPair (getG st gid).vars k v }) i).name = (getG st i).name := by
        intro i
        refine getG_setG_keep Group.name _ _ _ ?_ i
        rfl
      have hhosts : ∀ i, (getG (setG st gid { getG st gid with
          vars := setPair (getG st gid).vars k v }) i).hosts = (getG st i).hosts := by
        intro i
        refine getG_setG_keep Group.hosts _ _ _ ?_ i
        rfl
      have hpar : ∀ i, (getG (setG st gid { getG st gid with
          vars := setPair (getG st gid).vars k v }) i).parents = (getG st i).parents := by
        intro i
        refine getG_setG_keep Group.parents _ _ _ ?_ i
        rfl
      refine ⟨⟨by rw [hlen]; exact hM.1, by rw [hname]; exact hM.2.1, ?_, hM.2.2.2.1, ?_⟩,
        ⟨by rw [hlen], le_refl _, fun i _ => hname i⟩, hpar 0⟩
      · rw [map_eq_of_pointwise st _ hlen hname]
        exact hM.2.2.1
      · rw [hhosts 0]
        exact hM.2.2.2.2

theorem foldlM_pres {α : Type} (f : St → α → Option St)
    (hf : ∀ st a st2, f st a = some st2 → MasterInv st → PPres st st2) :
    ∀ (l : List α) (st st2 : St), l.foldlM f st = some st2 → MasterInv st → PPres st st2 := by
  intro l
  induction l with
  | nil =>
    intro st st2 h hM
    simp [List.foldlM] at h
    subst h
    exact PPres.selfOf hM
  | cons a rest ih =>
    intro st st2 h hM
    rw [List.foldlM_cons] at h
    cases hstep : f st a with
    | none => rw [hstep] at h; exact Option.noConfusion h
    | some b =>
      rw [hstep] at h
      have h1 := hf st a b hstep hM
      exact h1.trans (ih b st2 h h1.1)

theorem parseVars_pres (d : VarsDoc) (t : Option Tgt) (st st2 : St)
    (h : parseVars d t st = some st2) (hM : MasterInv st) : PPres st st2 := by
  cases d with
  | dict m =>
    exact foldlM_pres _ (fun s p s2 hs hMs => setVarT_pres s t p.1 p.2 s2 hs hMs) m st st2 h hM
  | vlist l =>
    refine foldlM_pres _ ?_ l st st2 h hM
    intro s var s2 hs hMs
    cases var with
    | nil => simp at hs
    | cons kv rest => exact setVarT_pres s t kv.1 kv.2 s2 hs hMs

theorem applyImportVars_pres (docs : List VarsDoc) (t : Option Tgt) (st st2 : St)
    (h : applyImportVars docs t st = some st2) (hM : MasterInv st) : PPres st st2 :=
  foldlM_pres _ (fun s d s2 hs hMs => parseVars_pres d t s s2 hs hMs) docs st st2 h hM

/-- `add_child` never touches `all`'s parents, and `add_parent` on a
receiver other than `all` (index 0) never does either. -/
theorem addCP_parents0 :
    ∀ n,
      (∀ st p c, (getG st 0).name = "all" →
        (getG (addChildF n st p c) 0).parents = (getG st 0).parents) ∧
      (∀ st c p, (getG st 0).name = "all" → c ≠ 0 →
        (getG (addParentF n st c p) 0).parents = (getG st 0).parents) := by
  intro n
  induction n with
  | zero => exact ⟨fun _ _ _ _ => rfl, fun _ _ _ _ _ => rfl⟩
  | succ n ih =>
    constructor
    · intro st p c hall
      rw [addChildF]
      split
      · rfl
      · have hc0 : redirect st c ≠ 0 := by
          unfold redirect
          split
          · omega
          · rename_i hne
            intro hc
            rw [hc] at hne
            exact hne hall
        have hall2 : (getG (setG st p { getG st p with
            children := (getG st p).children ++ [redirect st c] }) 0).name = "all" := by
          rw [getG_setG_keep Group.name st p
            { getG st p with children := (getG st p).children ++ [redirect st c] } rfl 0]
          exact hall
        rw [ih.2 _ _ _ hall2 hc0]
        refine getG_setG_keep Group.parents _ _ _ ?_ 0
        rfl
    · intro st c p hall hc0
      rw [addParentF]
      split
      · rfl
      · have hall2 : (getG (setG st c { getG st c with
            parents := (getG st c).parents ++ [p] }) 0).name = "all" := by
          rw [getG_setG_keep Group.name st c
            { getG st c with parents := (getG st c).parents ++ [p] } rfl 0]
          exact hall
        rw [ih.1 _ _ _ hall2]
        rw [getG_setG_ne _ _ _ _ hc0]

theorem addChildF5_pres (st : St) (p c : Nat) (hM : MasterInv st) :
    PPres st (addChildF 5 st p c) := by
  obtain ⟨hha, hgl, hf⟩ := (addCP_frame 5).1 st p c
  refine ⟨⟨?_, ?_, ?_, ?_, ?_⟩, ⟨?_, ?_, ?_⟩, ?_⟩
  · rw [hgl]
    exact hM.1
  · rw [(hf 0).1]
    exact hM.2.1
  · rw [map_eq_of_pointwise st _ hgl (fun i => (hf i).1)]
    exact hM.2.2.1
  · rw [hha]
    exact hM.2.2.2.1
  · rw [(hf 0).2.1, hha]
    exact hM.2.2.2.2
  · rw [hgl]
  · rw [hha]
  · intro i _
    exact (hf i).1
  · exact (addCP_parents0 5).1 st p c hM.2.1

theorem addParentF5_pres (st : St) (c p : Nat) (hM : MasterInv st) :
    MasterInv (addParentF 5 st c p) ∧ Ext st (addParentF 5 st c p) := by
  obtain ⟨hha, hgl, hf⟩ := (addCP_frame 5).2 st c p
  refine ⟨⟨?_, ?_, ?_, ?_, ?_⟩, ⟨?_, ?_, ?_⟩⟩
  · rw [hgl]
    exact hM.1
  · rw [(hf 0).1]
    exact hM.2.1
  · rw [map_eq_of_pointwise st _ hgl (fun i => (hf i).1)]
    exact hM.2.2.1
  · rw [hha]
    exact hM.2.2.2.1
  · rw [(hf 0).2.1, hha]
    exact hM.2.2.2.2
  · rw [hgl]
  · rw [hha]
  · intro i _
    exact (hf i).1

/-! ## Preservation through the recursive builder -/

theorem varsStep_pres (v : Option VarsDoc) (t : Option Tgt) (s s2 : St)
    (h : (match v with
          | none => some s
          | some d => parseVars d t s) = some s2)
    (hM : MasterInv s) : PPres s s2 := by
  cases v with
  | none =>
    simp at h
    subst h
    exact PPres.selfOf hM
  | some d => exact parseVars_pres d t s s2 h hM

mutual
theorem parseGroup_pres (e : YEntry) (st : St) (out : Option Nat × St)
    (h : parseGroup e st = some out) (hM : MasterInv st) :
    MasterInv out.2 ∧ Ext st out.2 ∧
    (∀ gid, out.1 = some gid → gid < out.2.groups.length) ∧
    (entryOK e → (getG st 0).parents = [] → (getG out.2 0).parents = []) := by
  cases e with
  | str s =>
    simp only [parseGroup] at h
    split at h
    · exact absurd h (by simp)
    · obtain ⟨hP, hlt, _⟩ := gocg_pres s st hM
      injection h with h2
      subst h2
      exact ⟨hP.1, hP.2.1, fun gid hg => by injection hg with hg2; rw [← hg2]; exact hlt,
        fun _ hp => hP.2.2 ▸ hp⟩
  | record g hostf lb v iv hs ch ps gs =>
    cases g with
    | some gname =>
      obtain ⟨hP1, hlt1, hname1⟩ := gocg_pres gname st hM
      simp only [parseGroup, Option.map_some] at h
      split at h
      · exact absurd h (by simp)
      · rename_i stA hA
        have hPlab : PPres (getOrCreateGroup gname st).2 stA := by
          cases lb with
          | none =>
            simp at hA
            subst hA
            exact PPres.selfOf hP1.1
          | some l => exact setVarT_pres _ _ _ _ _ hA hP1.1
        have hPA : PPres st stA := hP1.trans hPlab
        split at h
        · exact absurd h (by simp)
        · rename_i stB hB
          have hPB : PPres st stB := hPA.trans (applyImportVars_pres _ _ _ _ hB hPA.1)
          split at h
          · exact absurd h (by simp)
          · rename_i stC hC
            have hPC : PPres st stC := hPB.trans (varsStep_pres v _ _ _ hC hPB.1)
            split at h
            · exact absurd h (by simp)
            · rename_i stD hD
              have hRD := parseHostsL_pres hs (some (getOrCreateGroup gname st).1) stC stD
                hD hPC.1
              split at h
              · exact absurd h (by simp)
              · rename_i stE hE
                have hRE := parseChildrenL_pres ch true
                  (some (getOrCreateGroup gname st).1) stD stE hE hRD.1
                split at h
                · exact absurd h (by simp)
                · rename_i stF hF
                  have hgid0 : gname ≠ "all" → (getOrCreateGroup gname st).1 ≠ 0 := by
                    intro hga hg0
                    apply hga
                    rw [← hname1, hg0]
                    exact hP1.1.2.1
                  have hRF := parseParentsL_pres ps true
                    (some (getOrCreateGroup gname st).1) none stE stF hF hRE.1
                  injection h with h2
                  subst h2
                  refine ⟨hRF.1, ?_, ?_, ?_⟩
                  · exact ((hPC.2.1.comp hRD.2.1).comp hRE.2.1).comp hRF.2.1
                  · intro gid hg
                    injection hg with hg2
                    rw [← hg2]
                    calc (getOrCreateGroup gname st).1
                        < (getOrCreateGroup gname st).2.groups.length := hlt1
                      _ ≤ stF.groups.length :=
                        (((((hPlab.2.1.comp
                          (applyImportVars_pres _ _ _ _ hB hPA.1).2.1).comp
                          (varsStep_pres v _ _ _ hC hPB.1).2.1).comp hRD.2.1).comp
                          hRE.2.1).comp hRF.2.1).1
                  · intro hok hp
                    simp only [entryOK] at hok
                    obtain ⟨hps, hokhs, hokch, hokps, _⟩ := hok
                    have p1 : (getG stC 0).parents = [] := hPC.2.2 ▸ hp
                    have p2 : (getG stD 0).parents = [] := hRD.2.2 hokhs p1
                    have p3 : (getG stE 0).parents = [] := hRE.2.2 hokch p2
                    by_cases hga : gname = "all"
                    · have hpse : ps = [] := hps (by rw [hga])
                      subst hpse
                      simp only [parseParentsL] at hF
                      injection hF with hF2
                      rw [← hF2]
                      exact p3
                    · refine hRF.2.2 ?_ hokps p3
                      intro gid2 hg2
                      injection hg2 with hg3
                      rw [← hg3]
                      exact hgid0 hga
    | none =>
      simp only [parseGroup, Option.map_none] at h
      split at h
      · exact absurd h (by simp)
      · rename_i stA hA
        have hPA : PPres st stA := by
          cases lb with
          | none =>
            simp at hA
            subst hA
            exact PPres.selfOf hM
          | some l => simp at hA
        split at h
        · exact absurd h (by simp)
        · rename_i stB hB
          have hPB : PPres st stB := hPA.trans (applyImportVars_pres _ _ _ _ hB hPA.1)
          split at h
          · exact absurd h (by simp)
          · rename_i stC hC
            have hPC : PPres st stC := hPB.trans (varsStep_pres v _ _ _ hC hPB.1)
            split at h
            · exact absurd h (by simp)
            · rename_i stD hD
              have hRD := parseHostsL_pres hs none stC stD hD hPC.1
              split at h
              · exact absurd h (by simp)
              · rename_i stE hE
                have hRE := parseChildrenL_pres ch false none stD stE hE hRD.1
                split at h
                · exact absurd h (by simp)
                · rename_i stF hF
                  have hRF := parseParentsL_pres ps false none none stE stF hF hRE.1
                  injection h with h2
                  subst h2
                  refine ⟨hRF.1, ?_, ?_, ?_⟩
                  · exact ((hPC.2.1.comp hRD.2.1).comp hRE.2.1).comp hRF.2.1
                  · intro gid hg
                    exact absurd hg (by simp)
                  · intro hok hp
                    simp only [entryOK] at hok
                    obtain ⟨_, hokhs, hokch, hokps, _⟩ := hok
                    have p1 : (getG stC 0).parents = [] := hPC.2.2 ▸ hp
                    have p2 : (getG stD 0).parents = [] := hRD.2.2 hokhs p1
                    have p3 : (getG stE 0).parents = [] := hRE.2.2 hokch p2
                    refine hRF.2.2 ?_ hokps p3
                    intro gid2 hg2
                    exact absurd hg2 (by simp)

theorem parseHost_pres (e : YEntry) (st : St) (out : Option Nat × St)
    (h : parseHost e st = some out) (hM : MasterInv st) :
    MasterInv out.2 ∧ Ext st out.2 ∧
    (∀ hid, out.1 = some hid → hid < out.2.hosts.length) ∧
    (entryOK e → (getG st 0).parents = [] → (getG out.2 0).parents = []) := by
  cases e with
  | str s =>
    simp only [parseHost] at h
    obtain ⟨hP, hlt⟩ := goch_pres s st hM
    injection h with h2
    subst h2
    exact ⟨hP.1, hP.2.1, fun hid hg => by injection hg with hg2; rw [← hg2]; exact hlt,
      fun _ hp => hP.2.2 ▸ hp⟩
  | record g hostf lb v iv hs ch ps gs =>
    cases hostf with
    | none =>
      simp only [parseHost] at h
      injection h with h2
      subst h2
      exact ⟨hM, Ext.refl st, fun hid hg => absurd hg (by simp), fun _ hp => hp⟩
    | some hname =>
      obtain ⟨hP1, hlt1⟩ := goch_pres hname st hM
      simp only [parseHost] at h
      split at h
      · exact absurd h (by simp)
      · rename_i stA hA
        have hPA : PPres st stA := hP1.trans (varsStep_pres v _ _ _ hA hP1.1)
        split at h
        · exact absurd h (by simp)
        · rename_i stB hB
          have hPB : PPres st stB := hPA.trans (applyImportVars_pres _ _ _ _ hB hPA.1)
          split at h
          · exact absurd h (by simp)
          · rename_i stC hC
            have hhid : (getOrCreateHost hname st).1 < stB.hosts.length := by
              calc (getOrCreateHost hname st).1 < (getOrCreateHost hname st).2.hosts.length :=
                  hlt1
                _ ≤ stB.hosts.length :=
                  ((varsStep_pres v _ _ _ hA hP1.1).2.1.comp
                    (applyImportVars_pres _ _ _ _ hB hPA.1).2.1).2.1
            have hRC := parseGroupsL_pres gs (getOrCreateHost hname st).1 stB stC hC hPB.1
              hhid
            injection h with h2
            subst h2
            refine ⟨hRC.1, hPB.2.1.comp hRC.2.1, ?_, ?_⟩
            · intro hid hg
              injection hg with hg2
              rw [← hg2]
              calc (getOrCreateHost hname st).1 < stB.hosts.length := hhid
                _ ≤ stC.hosts.length := hRC.2.1.2.1
            · intro hok hp
              simp only [entryOK] at hok
              have p1 : (getG stB 0).parents = [] := hPB.2.2 ▸ hp
              exact hRC.2.2 hok.2.2.2.2 p1

theorem parseHostsL_pres (l : List YEntry) (gopt : Option Nat) (st st2 : St)
    (h : parseHostsL gopt l st = some st2) (hM : MasterInv st) :
    MasterInv st2 ∧ Ext st st2 ∧
    (entryOKL l → (getG st 0).parents = [] → (getG st2 0).parents = []) := by
  cases l with
  | nil =>
    simp only [parseHostsL] at h
    injection h with h2
    subst h2
    exact ⟨hM, Ext.refl st, fun _ hp => hp⟩
  | cons e rest =>
    simp only [parseHostsL] at h
    split at h
    · exact absurd h (by simp)
    · rename_i hopt st1 hph
      have hE := parseHost_pres e st (hopt, st1) hph hM
      cases hopt with
      | none =>
        have hR := parseHostsL_pres rest gopt st1 st2 h hE.1
        refine ⟨hR.1, hE.2.1.comp hR.2.1, ?_⟩
        intro hok hp
        exact hR.2.2 hok.2 (hE.2.2.2 hok.1 hp)
      | some hid =>
        cases gopt with
        | none => exact absurd h (by simp)
        | some gid =>
          have hhid : hid < st1.hosts.length := hE.2.2.1 hid rfl
          have hstep := addHostOp_pres st1 gid hid hhid hE.1
          have hR := parseHostsL_pres rest (some gid) (addHostOp st1 gid hid) st2 h hstep.1
          refine ⟨hR.1, (hE.2.1.comp hstep.2.1).comp hR.2.1, ?_⟩
          intro hok hp
          have p1 := hE.2.2.2 hok.1 hp
          have p2 : (getG (addHostOp st1 gid hid) 0).parents = [] := by
            rw [hstep.2.2]
            exact p1
          exact hR.2.2 hok.2 p2

theorem parseChildrenL_pres (l : List YEntry) (hasG : Bool) (gopt : Option Nat) (st st2 : St)
    (h : parseChildrenL hasG gopt l st = some st2) (hM : MasterInv st) :
    MasterInv st2 ∧ Ext st st2 ∧
    (entryOKL l → (getG st 0).parents = [] → (getG st2 0).parents = []) := by
  cases l with
  | nil =>
    simp only [parseChildrenL] at h
    injection h with h2
    subst h2
    exact ⟨hM, Ext.refl st, fun _ hp => hp⟩
  | cons e rest =>
    simp only [parseChildrenL] at h
    split at h
    · exact absurd h (by simp)
    · split at h
      · exact absurd h (by simp)
      · rename_i copt st1 hpg
        have hE := parseGroup_pres e st (copt, st1) hpg hM
        cases copt with
        | none =>
          have hR := parseChildrenL_pres rest hasG gopt st1 st2 h hE.1
          refine ⟨hR.1, hE.2.1.comp hR.2.1, ?_⟩
          intro hok hp
          exact hR.2.2 hok.2 (hE.2.2.2 hok.1 hp)
        | some cid =>
          cases gopt with
          | none => exact absurd h (by simp)
          | some gid =>
            have hstep := addChildF5_pres st1 gid cid hE.1
            have hR := parseChildrenL_pres rest hasG (some gid) (addChildF 5 st1 gid cid)
              st2 h hstep.1
            refine ⟨hR.1, (hE.2.1.comp hstep.2.1).comp hR.2.1, ?_⟩
            intro hok hp
            have p1 := hE.2.2.2 hok.1 hp
            have p2 : (getG (addChildF 5 st1 gid cid) 0).parents = [] := by
              rw [hstep.2.2]
              exact p1
            exact hR.2.2 hok.2 p2

theorem parseParentsL_pres (l : List YEntry) (hasG : Bool) (gopt : Option Nat)
    (pn : Option String) (st st2 : St)
    (h : parseParentsL hasG gopt pn l st = some st2) (hM : MasterInv st) :
    MasterInv st2 ∧ Ext st st2 ∧
    ((∀ gid, gopt = some gid → gid ≠ 0) → entryOKL l →
      (getG st 0).parents = [] → (getG st2 0).parents = []) := by
  cases l with
  | nil =>
    simp only [parseParentsL] at h
    injection h with h2
    subst h2
    exact ⟨hM, Ext.refl st, fun _ _ hp => hp⟩
  | cons e rest =>
    simp only [parseParentsL] at h
    split at h
    · exact absurd h (by simp)
    · rename_i pname2 hpn
      split at h
      · exact absurd h (by simp)
      · rename_i copt st1 hpg
        have hE := parseGroup_pres e st (copt, st1) hpg hM
        cases pname2 with
        | none => exact absurd h (by simp)
        | some pn2 =>
          dsimp only at h
          split at h
          · exact absurd h (by simp)
          · rename_i pid hfg
            cases gopt with
            | none => exact absurd h (by simp)
            | some gid =>
              have hstep := addParentF5_pres st1 gid pid hE.1
              have hR := parseParentsL_pres rest hasG (some gid) (some pn2)
                (addParentF 5 st1 gid pid) st2 h hstep.1
              refine ⟨hR.1, (hE.2.1.comp hstep.2).comp hR.2.1, ?_⟩
              intro hrec hok hp
              have hgid0 : gid ≠ 0 := hrec gid rfl
              have p1 := hE.2.2.2 hok.1 hp
              have p2 : (getG (addParentF 5 st1 gid pid) 0).parents = [] := by
                rw [(addCP_parents0 5).2 st1 gid pid hE.1.2.1 hgid0]
                exact p1
              exact hR.2.2 hrec hok.2 p2

theorem parseGroupsL_pres (l : List YEntry) (hid : Nat) (st st2 : St)
    (h : parseGroupsL hid l st = some st2) (hM : MasterInv st)
    (hh : hid < st.hosts.length) :
    MasterInv st2 ∧ Ext st st2 ∧
    (entryOKL l → (getG st 0).parents = [] → (getG st2 0).parents = []) := by
  cases l with
  | nil =>
    simp only [parseGroupsL] at h
    injection h with h2
    subst h2
    exact ⟨hM, Ext.refl st, fun _ hp => hp⟩
  | cons e rest =>
    simp only [parseGroupsL] at h
    split at h
    · exact absurd h (by simp)
    · rename_i gopt st1 hpg
      have hE := parseGroup_pres e st (gopt, st1) hpg hM
      cases gopt with
      | none => exact absurd h (by simp)
      | some gid =>
        have hh1 : hid < st1.hosts.length := lt_of_lt_of_le hh hE.2.1.2.1
        have hstep := addHostOp_pres st1 gid hid hh1 hE.1
        have hh2 : hid < (addHostOp st1 gid hid).hosts.length := by
          rw [addHostOp_hosts_length]
          exact hh1
        have hR := parseGroupsL_pres rest hid (addHostOp st1 gid hid) st2 h hstep.1 hh2
        refine ⟨hR.1, (hE.2.1.comp hstep.2.1).comp hR.2.1, ?_⟩
        intro hok hp
        have p1 := hE.2.2.2 hok.1 hp
        have p2 : (getG (addHostOp st1 gid hid) 0).parents = [] := by
          rw [hstep.2.2]
          exact p1
        exact hR.2.2 hok.2 p2
end

/-- Preservation by one `parse_yaml` loop iteration. -/
theorem parseStep_pres (st : St) (e : YEntry) (st2 : St)
    (h : parseStep st e = some st2) (hM : MasterInv st) :
    MasterInv st2 ∧ Ext st st2 ∧
    (entryOK e → (getG st 0).parents = [] → (getG st2 0).parents = []) := by
  unfold parseStep at h
  split at h
  · exact absurd h (by simp)
  · rename_i stA hA
    have hPA : MasterInv stA ∧ Ext st stA ∧
        (entryOK e → (getG st 0).parents = [] → (getG stA 0).parents = []) := by
      by_cases hg : groupKey e
      · rw [if_pos hg] at hA
        cases hpg : parseGroup e st with
        | none => rw [hpg] at hA; exact absurd hA (by simp)
        | some pr =>
          rw [hpg] at hA
          simp at hA
          have hE := parseGroup_pres e st pr hpg hM
          rw [← hA]
          exact ⟨hE.1, hE.2.1, hE.2.2.2⟩
      · rw [if_neg hg] at hA
        injection hA with hA2
        subst hA2
        exact ⟨hM, Ext.refl st, fun _ hp => hp⟩
    split at h
    · exact absurd h (by simp)
    · rename_i stB hB
      have hPB : MasterInv stB ∧ Ext stA stB ∧
          (entryOK e → (getG stA 0).parents = [] → (getG stB 0).parents = []) := by
        by_cases hh : hostKey e
        · rw [if_pos hh] at hB
          cases hph : parseHost e stA with
          | none => rw [hph] at hB; exact absurd hB (by simp)
          | some pr =>
            rw [hph] at hB
            simp at hB
            have hE := parseHost_pres e stA pr hph hPA.1
            rw [← hB]
            exact ⟨hE.1, hE.2.1, hE.2.2.2⟩
        · rw [if_neg hh] at hB
          injection hB with hB2
          subst hB2
          exact ⟨hPA.1, Ext.refl stA, fun _ hp => hp⟩
      injection h with h2
      subst h2
      exact ⟨hPB.1, hPA.2.1.comp hPB.2.1, fun hok hp =>
        hPB.2.2 hok (hPA.2.2 hok hp)⟩

/-- Preservation along the whole document. -/
theorem parseFold_pres (l : List YEntry) :
    ∀ (st0 st : St), l.foldlM parseStep st0 = some st → MasterInv st0 →
      MasterInv st ∧ Ext st0 st ∧
      (entryOKL l → (getG st0 0).parents = [] → (getG st 0).parents = []) := by
  induction l with
  | nil =>
    intro st0 st h hM
    simp [List.foldlM] at h
    subst h
    exact ⟨hM, Ext.refl st0, fun _ hp => hp⟩
  | cons e rest ih =>
    intro st0 st h hM
    rw [List.foldlM_cons] at h
    cases hstep : parseStep st0 e with
    | none => rw [hstep] at h; exact Option.noConfusion h
    | some st1 =>
      rw [hstep] at h
      have h1 := parseStep_pres st0 e st1 hstep hM
      have h2 := ih st1 st h h1.1
      exact ⟨h2.1, h1.2.1.comp h2.2.1, fun hok hp =>
        h2.2.2 hok.2 (h1.2.2 hok.1 hp)⟩

theorem initSt_master : MasterInv initSt := by decide

/-- Every state the builder produces satisfies the store invariant. -/
theorem parseYaml_master (doc : List YEntry) (st : St) (h : parseYaml doc = some st) :
    MasterInv st ∧ (entryOKL doc → (getG st 0).parents = []) := by
  have := parseFold_pres doc initSt st h initSt_master
  exact ⟨this.1, fun hok => this.2.2 hok rfl⟩

/-! ## C5: the store as an identity map -/

/-- The arena append performed by `Host.__init__` before registration. -/
def hpush (st : St) (n : String) : St :=
  { st with hosts := st.hosts ++ [⟨n, [], []⟩] }

theorem getG_hpush (st : St) (n : String) (i : Nat) :
    getG (hpush st n) i = getG st i := rfl

theorem getH_hpush_lt (st : St) (n : String) (x : Nat) (h : x < st.hosts.length) :
    getH (hpush st n) x = getH st x := by
  show (st.hosts ++ [(⟨n, [], []⟩ : Host)]).getD x default = st.hosts.getD x default
  exact getD_append_lt st.hosts _ x default h

theorem getH_hpush_len (st : St) (n : String) :
    getH (hpush st n) st.hosts.length = ⟨n, [], []⟩ := by
  show (st.hosts ++ [(⟨n, [], []⟩ : Host)]).getD st.hosts.length default = _
  exact getD_append_len st.hosts _ default

theorem newHost_eq (st : St) (n : String) :
    newHost st n =
      (st.hosts.length, addHostOp (addHostOp (hpush st n) 0 st.hosts.length) 1
        st.hosts.length) := rfl

/-- After `Host(name)` runs, `find_host(name)` locates exactly the new host. -/
theorem findHost_newHost (n : String) (st : St) (hM : MasterInv st)
    (hfh : findHost st n = none) :
    findHost (newHost st n).2 n = some st.hosts.length := by
  have hg0hosts : (getG (hpush st n) 0).hosts = List.range st.hosts.length := by
    rw [getG_hpush]
    exact hM.2.2.2.2
  have hnotmem : st.hosts.length ∉ (getG (hpush st n) 0).hosts := by
    rw [hg0hosts]
    simp
  have hiff : st.hosts.length ∈ (getG (hpush st n) 0).hosts ↔
      (0 : Nat) ∈ (getH (hpush st n) st.hosts.length).groups := by
    constructor
    · intro hm
      exact absurd hm hnotmem
    · intro hm
      rw [getH_hpush_len] at hm
      simp at hm
  have hnet : addHostOp (hpush st n) 0 st.hosts.length =
      hlink (hpush st n) 0 st.hosts.length := by
    rw [addHostOp_net _ _ _ hiff, if_neg hnotmem]
  have hhosts0 : (getG (hlink (hpush st n) 0 st.hosts.length) 0).hosts =
      List.range st.hosts.length ++ [st.hosts.length] := by
    rw [getG_hlink_hosts _ _ _ _ (by show 0 < st.groups.length; have := hM.1; omega)]
    rw [hg0hosts]
    simp
  have hname : ∀ x, (getH (addHostOp (hlink (hpush st n) 0 st.hosts.length) 1
      st.hosts.length) x).name = (getH (hpush st n) x).name := by
    intro x
    rw [getH_addHostOp_name, getH_hlink_name]
  rw [show (newHost st n).2 = addHostOp (addHostOp (hpush st n) 0 st.hosts.length) 1
    st.hosts.length from rfl, hnet]
  unfold findHost
  rw [getG_addHostOp_ne _ _ _ _ (by decide), hhosts0]
  have hnone : findHostAux (addHostOp (hlink (hpush st n) 0 st.hosts.length) 1
      st.hosts.length) (List.range st.hosts.length) n = none := by
    refine findHostAux_none_of_names _ _ _ ?_
    intro x hx
    have hxl : x < st.hosts.length := List.mem_range.mp hx
    rw [hname x, getH_hpush_lt _ _ _ hxl]
    refine findHostAux_none_names st _ n hfh x ?_
    rw [hM.2.2.2.2]
    exact hx
  rw [findHostAux_append _ _ _ _ hnone]
  have hlast : (getH (addHostOp (hlink (hpush st n) 0 st.hosts.length) 1
      st.hosts.length) st.hosts.length).name = n := by
    rw [hname, getH_hpush_len]
  simp [findHostAux, hlast]

/-- `get_or_create_group` is idempotent: the repeat call returns the same
index and leaves the store untouched. -/
theorem gocg_idem (n : String) (st : St) :
    getOrCreateGroup n (getOrCreateGroup n st).2 = getOrCreateGroup n st := by
  cases hfg : findGroup st n with
  | some gid => simp only [getOrCreateGroup, hfg]
  | none =>
    have h2 : findGroup { st with groups := st.groups ++ [(⟨n, [], [], [], []⟩ : Group)] } n
        = some st.groups.length := by
      show findGroupAux (st.groups ++ [(⟨n, [], [], [], []⟩ : Group)]) n = _
      exact findGroupAux_append st.groups ⟨n, [], [], [], []⟩ n hfg rfl
    simp only [getOrCreateGroup, hfg, h2]

/-- `get_or_create_host` is idempotent on any store satisfying the run
invariant. -/
theorem goch_idem (n : String) (st : St) (hM : MasterInv st) :
    getOrCreateHost n (getOrCreateHost n st).2 = getOrCreateHost n st := by
  cases hfh : findHost st n with
  | some hid => simp only [getOrCreateHost, hfh]
  | none =>
    simp only [getOrCreateHost, hfh, findHost_newHost n st hM hfh]
    rfl

/-- **C5**: the store acts as an identity map.  A repeat
`get_or_create_group` call with the same name returns the same group index
and leaves the store unchanged; a repeat `get_or_create_host` call likewise
(on any store satisfying the run invariant, which holds in every run); and
in every store built by `parse_yaml` no two groups and no two hosts share a
name. -/
theorem c5_identity_map :
    (∀ (n : String) (st : St),
        getOrCreateGroup n (getOrCreateGroup n st).2 = getOrCreateGroup n st) ∧
    (∀ (n : String) (st : St), MasterInv st →
        getOrCreateHost n (getOrCreateHost n st).2 = getOrCreateHost n st) ∧
    (∀ (doc : List YEntry) (st : St), parseYaml doc = some st →
        (st.groups.map Group.name).Nodup ∧ (st.hosts.map Host.name).Nodup) := by
  refine ⟨gocg_idem, goch_idem, ?_⟩
  intro doc st h
  have hm := (parseYaml_master doc st h).1
  exact ⟨hm.2.2.1, hm.2.2.2.1⟩

/-- Witness for C5 at concrete inputs. -/
theorem c5_identity_map_witness :
    (getOrCreateGroup "g9" (getOrCreateGroup "g9" initSt).2 =
      getOrCreateGroup "g9" initSt) ∧
    (MasterInv c3Built ∧
      getOrCreateHost "h9" (getOrCreateHost "h9" c3Built).2 =
        getOrCreateHost "h9" c3Built) ∧
    (parseYaml (c3docA 1 2) = some c3Built ∧
      (c3Built.groups.map Group.name).Nodup ∧ (c3Built.hosts.map Host.name).Nodup) :=
  ⟨c5_identity_map.1 "g9" initSt,
   ⟨by decide, c5_identity_map.2.1 "h9" c3Built (by decide)⟩,
   ⟨rfl, c5_identity_map.2.2 (c3docA 1 2) c3Built rfl⟩⟩

/-! ## C6: the all-redirect, amended -/

/-- The store built from `c6redirDoc` (a group `g` with child `all`). -/
def c6Built : St := (parseYaml c6redirDoc).getD initSt

/-- **C6** (amended): declaring `all` as a *child* is indeed redirected:
in the built store for `c6redirDoc`, group `g` gains `_all` (index 1) as
its child and `_all` gains `g` as a parent while `all` keeps no parents;
and for every document in which no (possibly nested) `group: all` record
carries a `parents` list, the whole build leaves `all`'s parents empty.
(The `parents` path is the exception: `add_parent` does not redirect, see
the counterexample.) -/
theorem c6_all_redirect_amended :
    (parseYaml c6redirDoc = some c6Built ∧
      (getG c6Built 2).name = "g" ∧ (getG c6Built 1).name = "_all" ∧
      (getG c6Built 2).children = [1] ∧ (getG c6Built 1).parents = [2] ∧
      (getG c6Built 0).parents = []) ∧
    (∀ (doc : List YEntry) (st : St), parseYaml doc = some st → entryOKL doc →
        (getG st 0).parents = []) := by
  refine ⟨⟨rfl, rfl, rfl, rfl, rfl, rfl⟩, ?_⟩
  intro doc st h hok
  exact (parseYaml_master doc st h).2 hok

/-- Witness for C6: the hypotheses of the universal part hold at
`c6redirDoc`. -/
theorem c6_all_redirect_amended_witness :
    parseYaml c6redirDoc = some c6Built ∧ entryOKL c6redirDoc ∧
    (getG c6Built 0).parents = [] :=
  ⟨rfl, ⟨⟨fun _ => rfl, trivial, ⟨trivial, trivial⟩, trivial, trivial⟩, trivial⟩,
   c6_all_redirect_amended.2 c6redirDoc c6Built rfl
     ⟨⟨fun _ => rfl, trivial, ⟨trivial, trivial⟩, trivial, trivial⟩, trivial⟩⟩

/-! ## C8: unknown single-host query faults -/

/-- **C8**: on every store built by `parse_yaml`, the single-host query for
a name that no host carries crashes (the `find` loop leaves `host = None`
and `host.get_variables()` raises) rather than returning any mapping. -/
theorem c8_unknown_host_faults (doc : List YEntry) (st : St) (n : String)
    (extra : Option (String × String)) (h : parseYaml doc = some st)
    (hn : ∀ ho ∈ st.hosts, ho.name ≠ n) :
    singleHostOut st n extra = none := by
  have hM := (parseYaml_master doc st h).1
  have hfh : findHost st n = none := by
    unfold findHost
    rw [hM.2.2.2.2]
    refine findHostAux_none_of_names st _ n ?_
    intro x hx
    have hxl : x < st.hosts.length := List.mem_range.mp hx
    have hmem : getH st x ∈ st.hosts := by
      show st.hosts.getD x default ∈ st.hosts
      rw [getD_lt st.hosts x hxl]
      exact List.getElem_mem hxl
    exact hn _ hmem
  unfold singleHostOut
  rw [hfh]

/-- Witness for C8 at a concrete store and name. -/
theorem c8_unknown_host_faults_witness :
    parseYaml (c3docA 1 2) = some c3Built ∧
    (∀ ho ∈ c3Built.hosts, ho.name ≠ "zz") ∧
    singleHostOut c3Built "zz" (some ("k", "v")) = none :=
  ⟨rfl, by decide,
   c8_unknown_host_faults (c3docA 1 2) c3Built "zz" (some ("k", "v")) rfl (by decide)⟩

end YamlInv
